import Mathlib

/-!
Verification development for the simulation core of a quantum-circuit
library: the buffered state-vector engine of
`cirq/sim/act_on_state_vector_args.py` and the Clifford gate algebra.

Floating-point amplitudes are modelled exactly, as pairs of rationals
(real and imaginary part); the uniform draw `prng.random()` and the
mixture choice `prng.choice` are explicit parameters, so that every run
of the embedded code is deterministic and computable.
-/

namespace Cirq

/-- A complex amplitude, modelled as a pair of rationals (re, im). -/
abbrev Amplitude := ℚ × ℚ

/-- Complex multiplication on amplitudes. -/
def cmul (a b : Amplitude) : Amplitude :=
  (a.1 * b.1 - a.2 * b.2, a.1 * b.2 + a.2 * b.1)

/-- Complex addition on amplitudes. -/
def cadd (a b : Amplitude) : Amplitude := (a.1 + b.1, a.2 + b.2)

/-- A state vector: the flat list of amplitudes of the tensor. -/
abbrev StateVec := List Amplitude

/-- A matrix (unitary or Kraus operator), as a list of rows. -/
abbrev KrausMat := List (List Amplitude)

/-- Matrix-vector product.  This models `linalg.targeted_left_multiply`
in the case where the target axes cover the whole tensor; the
claim-relevant logic of the callers does not depend on the axes
parameter. -/
def matVec (m : KrausMat) (v : StateVec) : StateVec :=
  m.map (fun row => (List.zipWith cmul row v).foldr cadd (0, 0))

/-- Squared norm of a vector of amplitudes: models
`np.linalg.norm(self._buffer) ** 2`. -/
def normSq (v : StateVec) : ℚ :=
  (v.map (fun a => a.1 ^ 2 + a.2 ^ 2)).sum

/-- State left behind by the kraus-selection loop of `apply_channel`
(`act_on_state_vector_args.py` lines 243-253): the running draw `p`
after the last executed iteration, the python loop variable `index` and
its `weight`, and the running fallback weight and fallback index. -/
structure ChanLoopOut where
  p : ℚ
  index : ℕ
  weight : ℚ
  fallback_weight : ℚ
  fallback_weight_index : ℕ
deriving DecidableEq

/-- The `for index in range(len(kraus_tensors))` loop of
`apply_channel`: `i` is the python index of the head element, `p` the
running draw, `fw` and `fi` the fallback weight and index so far.  For
each weight the fallback pair is updated when the weight strictly
exceeds the current fallback weight, then the weight is subtracted from
`p`, and the loop breaks when `p` drops below zero.  Returns `none` iff
the weight list is empty (the loop body never ran, `weight is None`). -/
def chanLoop : List ℚ → ℕ → ℚ → ℚ → ℕ → Option ChanLoopOut
  | [], _, _, _, _ => none
  | w :: ws, i, p, fw, fi =>
    let fw' := if w > fw then w else fw
    let fi' := if w > fw then i else fi
    let p' := p - w
    if p' < 0 then some ⟨p', i, w, fw', fi'⟩
    else
      match chanLoop ws (i + 1) p' fw' fi' with
      | none => some ⟨p', i, w, fw', fi'⟩
      | some out => some out

/-- The per-operator weights seen by `apply_channel`: for each kraus
operator in order, the squared norm of the buffer prepared by
`prepare_into_buffer` (the operator applied to the state vector). -/
def channelWeights (ks : List KrausMat) (st : StateVec) : List ℚ :=
  ks.map fun k => normSq (matVec k st)

/-- `_BufferedStateVector.apply_channel` (lines 212-265).  `kraus` is
the result of the `protocols.kraus` probe (`none` is the "no channel
available" sentinel), `p` is the uniform draw `prng.random()`.
Returns `.ok none` for the sentinel, `.error` for the failed
`assert weight is not None, "No Kraus operators"`, and otherwise
`.ok (some (index, weight, buffer))`: the selected kraus index, the
selected weight, and the buffer that is swapped into the primary role
(pre-division; the swapped-in state is this buffer divided by the
square root of the weight). -/
def apply_channel (kraus : Option (List KrausMat)) (st : StateVec) (p : ℚ) :
    Except String (Option (ℕ × ℚ × StateVec)) :=
  match kraus with
  | none => .ok none
  | some ks =>
    match chanLoop (channelWeights ks st) 0 p 0 0 with
    | none => .error "No Kraus operators"
    | some out =>
      let sel := if 0 ≤ out.p ∨ out.weight = 0
        then (out.fallback_weight_index, out.fallback_weight)
        else (out.index, out.weight)
      .ok (some (sel.1, sel.2, matVec (ks.getD sel.1 []) st))

/-- Squared norm of `buffer / sqrt w`, the state swapped in after the
renormalization `self._buffer /= np.sqrt(weight)`: dividing every
amplitude by the square root of `w` divides the squared norm by `w`. -/
def renormalizedNormSq (buffer : StateVec) (w : ℚ) : ℚ :=
  normSq buffer / w

/-- The fallback accumulation of the loop in isolation: the final
`(fallback_weight, fallback_weight_index)` pair after scanning the
weights `ws` whose first element has python index `i`, starting from
the current best pair `(fw, fi)`. -/
def fbScan : List ℚ → ℕ → ℚ → ℕ → ℚ × ℕ
  | [], _, fw, fi => (fw, fi)
  | w :: ws, i, fw, fi =>
    if w > fw then fbScan ws (i + 1) w i else fbScan ws (i + 1) fw fi

/-- Capability view of an operation (an `action`): each protocol probe
(`protocols.apply_unitary`, `protocols.mixture`, `protocols.kraus`)
reports its sentinel as `none`; `is_measurement` and `key` model
`protocols.is_measurement` and `protocols.measurement_key_name`. -/
structure Action where
  unitary : Option KrausMat
  mixture : Option (List (ℚ × KrausMat))
  kraus : Option (List KrausMat)
  is_measurement : Bool
  key : String

/-- The classical data store, as the ordered list of recorded
(measurement key, index) channel-measurement records. -/
abbrev ClassicalData := List (String × ℕ)

/-- `ClassicalDataStore.record_channel_measurement`: appends one record
under the given key. -/
def record_channel_measurement (key : String) (index : ℕ)
    (data : ClassicalData) : ClassicalData :=
  data ++ [(key, index)]

/-- `_BufferedStateVector.apply_unitary` (lines 166-188): succeeds iff
the action exposes a unitary (`protocols.apply_unitary` does not return
`NotImplemented`); on success the new target tensor is the unitary
applied to the state. -/
def apply_unitary (u : Option KrausMat) (st : StateVec) : Option StateVec :=
  match u with
  | none => none
  | some m => some (matVec m st)

/-- `_BufferedStateVector.apply_mixture` (lines 190-210): `chosen` is
the index sampled by `prng.choice(range(len(unitaries)), p=probabilities)`.
Returns the chosen index and the new state, or `none` if the action
exposes no mixture. -/
def apply_mixture (mixture : Option (List (ℚ × KrausMat))) (st : StateVec)
    (chosen : ℕ) : Option (ℕ × StateVec) :=
  match mixture with
  | none => none
  | some mix => some (chosen, matVec (mix.getD chosen (0, [])).2 st)

/-- A value returned by a dispatch strategy: python `True`, `False`, or
`NotImplemented`. -/
inductive StratResult where
  | sTrue
  | sFalse
  | sNotImpl
deriving DecidableEq

/-- The message of the `TypeError` raised by
`ActOnStateVectorArgs._act_on_fallback_` when every strategy is
exhausted (the trailing action repr formatted by the python code is
omitted). -/
def actOnErrMsg : String :=
  "Can\x27t simulate operations that don\x27t implement SupportsUnitary, SupportsConsistentApplyUnitary, SupportsMixture or is a measurement"

/-- The strategy loop of `_act_on_fallback_` (lines 486-497): try each
strategy in order, return on the first `True`, break (and raise) on a
`False`, continue past `NotImplemented`; raise the `TypeError` when the
strategies are exhausted. -/
def runStrats : List StratResult → Except String Bool
  | [] => .error actOnErrMsg
  | r :: rest =>
    match r with
    | .sFalse => .error actOnErrMsg
    | .sTrue => .ok true
    | .sNotImpl => runStrats rest

/-- `ActOnStateVectorArgs._act_on_fallback_` (lines 471-497): the
strategy chain is apply-unitary, then mixture, then channel, then -
only when `allow_decompose` - decompose-and-retry.  `u`, `m`, `c`, `d`
are the results of the four strategies for the given action. -/
def act_on_fallback (u m c d : StratResult) (allow_decompose : Bool) :
    Except String Bool :=
  runStrats ([u, m, c] ++ if allow_decompose then [d] else [])

/-- `_strat_act_on_state_vector_from_apply_unitary` (lines 557-560):
`True` on success, `NotImplemented` otherwise; never touches the
classical data store. -/
def strat_act_on_state_vector_from_apply_unitary (a : Action)
    (st : StateVec) (data : ClassicalData) : StratResult × ClassicalData :=
  (if (apply_unitary a.unitary st).isSome then .sTrue else .sNotImpl, data)

/-- `_strat_act_on_state_vector_from_mixture` (lines 563-572): on
success, when the action is a measurement, records the chosen mixture
index under the action measurement key. -/
def strat_act_on_state_vector_from_mixture (a : Action) (st : StateVec)
    (chosen : ℕ) (data : ClassicalData) : StratResult × ClassicalData :=
  match apply_mixture a.mixture st chosen with
  | none => (.sNotImpl, data)
  | some (index, _) =>
    (.sTrue,
      if a.is_measurement then record_channel_measurement a.key index data
      else data)

/-- `_strat_act_on_state_vector_from_channel` (lines 575-584): on
success, when the action is a measurement, records the selected kraus
index under the action measurement key.  An assertion failure inside
`apply_channel` propagates. -/
def strat_act_on_state_vector_from_channel (a : Action) (st : StateVec)
    (p : ℚ) (data : ClassicalData) :
    Except String (StratResult × ClassicalData) :=
  match apply_channel a.kraus st p with
  | .error e => .error e
  | .ok none => .ok (.sNotImpl, data)
  | .ok (some (index, _, _)) =>
    .ok (.sTrue,
      if a.is_measurement then record_channel_measurement a.key index data
      else data)

/-- Aliasing model of `_BufferedStateVector`: the two numpy arrays are
tracked by identity tokens.  `state_vector` and `buffer` are the
identities of the arrays currently filling the two roles. -/
structure BufferedSVRef where
  state_vector : ℕ
  buffer : ℕ
deriving DecidableEq

/-- `_BufferedStateVector._swap_target_tensor_for` (lines 310-322): if
the new target tensor is the buffer, the old state vector becomes the
new buffer (the two arrays exchange roles); the new target tensor
always becomes the state vector.  No array is copied. -/
def swap_target_tensor_for (s : BufferedSVRef) (new_target : ℕ) :
    BufferedSVRef :=
  if new_target = s.buffer then ⟨new_target, s.state_vector⟩
  else ⟨new_target, s.buffer⟩

/-- Identity effect of `apply_unitary`: `protocols.apply_unitary`
returns some array `ret` (the target tensor written in place, the
available buffer, or a fresh array), which is then swapped in. -/
def apply_unitary_ref (s : BufferedSVRef) (ret : ℕ) : BufferedSVRef :=
  swap_target_tensor_for s ret

/-- Identity effect of `apply_mixture`: the result is always written
into the buffer, which is then swapped in. -/
def apply_mixture_ref (s : BufferedSVRef) : BufferedSVRef :=
  swap_target_tensor_for s s.buffer

/-- Identity effect of `apply_channel`: the selected operator is
prepared into the buffer, which is then swapped in. -/
def apply_channel_ref (s : BufferedSVRef) : BufferedSVRef :=
  swap_target_tensor_for s s.buffer

/-- Identity effect of `measure`: `measure_state_vector` writes with
`out=self._state_vector`, in place; neither role changes. -/
def measure_ref (s : BufferedSVRef) : BufferedSVRef := s

/-- Substring occurrence on character lists: `startsWithL pat l` holds
when `pat` is an initial segment of `l`. -/
def startsWithL : List Char → List Char → Bool
  | [], _ => true
  | _ :: _, [] => false
  | a :: pa, b :: lb => a = b && startsWithL pa lb

/-- `occursIn pat l` holds when `pat` occurs contiguously in `l`. -/
def occursIn (pat : List Char) : List Char → Bool
  | [] => startsWithL pat []
  | l@(_ :: rest) => startsWithL pat l || occursIn pat rest

/-!
Modelled from the spec: the Clifford gate algebra (PauliTransform,
SymplecticTableau, SingleQubitCliffordGate, multi-qubit CliffordGate).
The implementation module is not part of the excerpt (only its test
file is), so the data model follows the specification text: a tableau
row records how one Pauli generator transforms, `then` composes
transformations, padding embeds a smaller tableau with identity on
untouched qubits.

A signed Pauli-string is represented exactly: `i^phase * X^x * Z^z`
with `phase : ZMod 4` and selector functions `x z : Fin n → Bool`
(per-qubit X-part bits and Z-part bits, the X factors written to the
left of the Z factors).
-/

/-- Kernel-computable decidability for quantification over `Fin n`,
through `List.finRange` (the library instance does not reduce inside
`decide`). -/
instance decidableForallFinL {n : ℕ} (p : Fin n → Prop) [DecidablePred p] :
    Decidable (∀ i, p i) :=
  decidable_of_iff (((List.finRange n).all fun i => decide (p i)) = true)
    (by simp [List.all_eq_true])

/-- Kernel-computable equality test for selector functions on `Fin n`. -/
instance decEqFinFun {α : Type} [DecidableEq α] {n : ℕ} :
    DecidableEq (Fin n → α) := fun f g =>
  decidable_of_iff (((List.finRange n).all fun i => decide (f i = g i)) = true)
    (by simp [List.all_eq_true, funext_iff])

/-- An element of the n-qubit Pauli group: `i^phase * X^x * Z^z`. -/
structure PauliElem (n : ℕ) where
  phase : ZMod 4
  x : Fin n → Bool
  z : Fin n → Bool

/-- Componentwise, kernel-computable equality test for Pauli strings. -/
instance instDecEqPauliElem {n : ℕ} : DecidableEq (PauliElem n) := fun p q =>
  decidable_of_iff (p.phase = q.phase ∧ p.x = q.x ∧ p.z = q.z) (by
    constructor
    · rintro ⟨h1, h2, h3⟩; cases p; cases q; simp_all
    · rintro rfl; exact ⟨rfl, rfl, rfl⟩)

/-- Parity of the overlap of two selectors along an index list. -/
def sdotL {n : ℕ} (l : List (Fin n)) (a b : Fin n → Bool) : Bool :=
  l.foldr (fun i acc => xor (a i && b i) acc) false

/-- Parity of the overlap of two selectors. -/
def sdot {n : ℕ} (a b : Fin n → Bool) : Bool :=
  sdotL (List.finRange n) a b

/-- Pointwise xor of two selectors. -/
def xorSel {n : ℕ} (a b : Fin n → Bool) : Fin n → Bool :=
  fun i => xor (a i) (b i)

/-- Group law: moving the X factors of the right operand across the Z
factors of the left operand contributes `(-1)` for every qubit carrying
both, hence the `2 * overlap` phase correction. -/
instance {n : ℕ} : Mul (PauliElem n) where
  mul p q :=
    ⟨p.phase + q.phase + (if sdot p.z q.x then 2 else 0),
     xorSel p.x q.x, xorSel p.z q.z⟩

/-- The identity Pauli string. -/
instance {n : ℕ} : One (PauliElem n) where
  one := ⟨0, fun _ => false, fun _ => false⟩

/-- A pure scalar `i^u`. -/
def phaseElem (n : ℕ) (u : ZMod 4) : PauliElem n :=
  ⟨u, fun _ => false, fun _ => false⟩

/-- Ordered product of the values of `f` along the index list `l`. -/
def listProd {n : ℕ} (l : List (Fin n)) (f : Fin n → PauliElem n) :
    PauliElem n :=
  l.foldr (fun i acc => f i * acc) 1

/-- Ordered product, over the index list `l`, of the `rows` selected by
`s` (non-selected indices contribute the identity). -/
def selProd {n : ℕ} (l : List (Fin n)) (rows : Fin n → PauliElem n)
    (s : Fin n → Bool) : PauliElem n :=
  listProd l fun i => if s i then rows i else 1

/-- A stabilizer tableau for n qubits: row `i` of the X-block records
the image of Pauli-X on qubit `i`, row `i` of the Z-block the image of
Pauli-Z on qubit `i` (each image a signed Pauli string). -/
structure Tableau (n : ℕ) where
  xrow : Fin n → PauliElem n
  zrow : Fin n → PauliElem n

/-- Componentwise, kernel-computable equality test for tableaux. -/
instance instDecEqTableau {n : ℕ} : DecidableEq (Tableau n) := fun s t =>
  decidable_of_iff (s.xrow = t.xrow ∧ s.zrow = t.zrow) (by
    constructor
    · rintro ⟨h1, h2⟩; cases s; cases t; simp_all
    · rintro rfl; exact ⟨rfl, rfl⟩)

/-- Kernel-computable equality test for optional tableaux: the derived
instance transports the result along the equality proof, which does not
reduce on function-valued fields. -/
instance instDecEqOptionTableau {n : ℕ} : DecidableEq (Option (Tableau n)) :=
  fun a b =>
  match a, b with
  | none, none => isTrue rfl
  | none, some _ => isFalse fun h => Option.noConfusion h
  | some _, none => isFalse fun h => Option.noConfusion h
  | some s, some t =>
    decidable_of_iff (s = t) ⟨fun h => by rw [h], fun h => by injection h⟩

/-- The image of an arbitrary Pauli-group element under the
transformation recorded by a tableau: substitute the row images for the
generators, in the canonical order. -/
def applyElem {n : ℕ} (t : Tableau n) (p : PauliElem n) : PauliElem n :=
  phaseElem n p.phase *
    (selProd (List.finRange n) t.xrow p.x * selProd (List.finRange n) t.zrow p.z)

/-- Generator Pauli-X on qubit `i`. -/
def genX {n : ℕ} (i : Fin n) : PauliElem n :=
  ⟨0, fun j => decide (j = i), fun _ => false⟩

/-- Generator Pauli-Z on qubit `i`. -/
def genZ {n : ℕ} (i : Fin n) : PauliElem n :=
  ⟨0, fun _ => false, fun j => decide (j = i)⟩

/-- The identity tableau: every generator maps to itself. -/
def idT (n : ℕ) : Tableau n := ⟨genX, genZ⟩

/-- `SymplecticTableau.then`: the composed tableau represents applying
`t` then `u`; each row of `t` is pushed through `u`. -/
def thenT {n : ℕ} (t u : Tableau n) : Tableau n :=
  ⟨fun i => applyElem u (t.xrow i), fun i => applyElem u (t.zrow i)⟩

/-- The symplectic invariant, stated through the group it encodes: the
row images must commute and square exactly as the generators do
(images of a Hermitian generator square to one; images of commuting
generators commute; the images of `X_i` and `Z_i` anticommute). -/
def Valid {n : ℕ} (t : Tableau n) : Prop :=
  (∀ i j : Fin n, t.xrow i * t.xrow j = t.xrow j * t.xrow i) ∧
  (∀ i : Fin n, t.xrow i * t.xrow i = 1) ∧
  (∀ i j : Fin n, t.zrow i * t.zrow j = t.zrow j * t.zrow i) ∧
  (∀ i : Fin n, t.zrow i * t.zrow i = 1) ∧
  (∀ i j : Fin n, i ≠ j → t.zrow i * t.xrow j = t.xrow j * t.zrow i) ∧
  (∀ i : Fin n, t.zrow i * t.xrow i = phaseElem n 2 * (t.xrow i * t.zrow i))

instance {n : ℕ} (t : Tableau n) : Decidable (Valid t) := by
  unfold Valid; infer_instance

/-- Embeds a 1-qubit Pauli string at qubit position `q` of `n`. -/
def embed1 {n : ℕ} (p : PauliElem 1) (q : Fin n) : PauliElem n :=
  ⟨p.phase, fun j => decide (j = q) && p.x 0, fun j => decide (j = q) && p.z 0⟩

/-- Padding (spec, section 4.1): embeds a 1-qubit tableau into an
n-qubit space at axis `q`, leaving every untouched qubit as identity. -/
def pad1 {n : ℕ} (t : Tableau 1) (q : Fin n) : Tableau n :=
  ⟨fun j => if j = q then embed1 (t.xrow 0) q else genX j,
   fun j => if j = q then embed1 (t.zrow 0) q else genZ j⟩

/-- Embeds a 2-qubit Pauli string at qubit positions `a`, `b` of `n`. -/
def embed2 {n : ℕ} (p : PauliElem 2) (a b : Fin n) : PauliElem n :=
  ⟨p.phase,
   fun j => (decide (j = a) && p.x 0) || (decide (j = b) && p.x 1),
   fun j => (decide (j = a) && p.z 0) || (decide (j = b) && p.z 1)⟩

/-- Padding of a 2-qubit tableau at axis positions `a`, `b`. -/
def pad2 {n : ℕ} (t : Tableau 2) (a b : Fin n) : Tableau n :=
  ⟨fun j =>
    if j = a then embed2 (t.xrow 0) a b
    else if j = b then embed2 (t.xrow 1) a b
    else genX j,
   fun j =>
    if j = a then embed2 (t.zrow 0) a b
    else if j = b then embed2 (t.zrow 1) a b
    else genZ j⟩

/-- `CliffordGate.from_op_list` (spec, section 4.3): starting from the
identity tableau, composes in each operation in sequence; `ops` holds
the per-operation tableaux already embedded (padded) into the full
qubit space at the operation qubit positions. -/
def from_op_list {n : ℕ} (ops : List (Tableau n)) : Tableau n :=
  ops.foldl thenT (idT n)

/-- One-by-one simulation: act with each operation in sequence on a
tableau-backed simulation state (spec, section 4.3 fast path: the
padded tableau is composed directly into the simulation tableau). -/
def act_on_ops {n : ℕ} (state : Tableau n) (ops : List (Tableau n)) : Tableau n :=
  ops.foldl thenT state

/-- Acting with a single compiled gate on a tableau-backed state. -/
def act_on_gate {n : ℕ} (state : Tableau n) (g : Tableau n) : Tableau n :=
  thenT state g

/-- The single-qubit Pauli axes. -/
inductive PauliAxis where
  | X
  | Y
  | Z
deriving DecidableEq

/-- `PauliTransform`: the image of one Pauli axis under conjugation -
a target axis (field `to` in the source; `to` is reserved in Lean) and
a sign-flip flag. -/
structure PauliTransform where
  target : PauliAxis
  flip : Bool
deriving DecidableEq

/-- The Hermitian signed Pauli corresponding to a transform: the axis
as a 1-qubit Pauli string (`Y = i * X * Z` carries the phase `i`), with
phase `i^2 = -1` added when the sign is flipped. -/
def encodeTransform (tr : PauliTransform) : PauliElem 1 :=
  match tr.target with
  | .X => ⟨if tr.flip then 2 else 0, fun _ => true, fun _ => false⟩
  | .Y => ⟨if tr.flip then 3 else 1, fun _ => true, fun _ => true⟩
  | .Z => ⟨if tr.flip then 2 else 0, fun _ => false, fun _ => true⟩

/-- The 1-qubit Pauli string of a bare axis. -/
def axisElem (a : PauliAxis) : PauliElem 1 :=
  encodeTransform ⟨a, false⟩

/-- Reads a Hermitian 1-qubit signed Pauli string back as a
PauliTransform. -/
def decodeElem (p : PauliElem 1) : PauliTransform :=
  match p.x 0, p.z 0 with
  | true, false => ⟨.X, p.phase = 2⟩
  | true, true => ⟨.Y, p.phase = 3⟩
  | false, true => ⟨.Z, p.phase = 2⟩
  | false, false => ⟨.X, false⟩

/-- `SingleQubitCliffordGate.from_xz_map`: the gate is identified by
the transforms of X and of Z; its backing tableau stores them as the
two rows. -/
def from_xz_map (tx tz : PauliTransform) : Tableau 1 :=
  ⟨fun _ => encodeTransform tx, fun _ => encodeTransform tz⟩

/-- `SingleQubitCliffordGate.transform`: how a Pauli axis maps, read
off the backing tableau (the Y image is derived from the X and Z
rows). -/
def transform (t : Tableau 1) (a : PauliAxis) : PauliTransform :=
  decodeElem (applyElem t (axisElem a))

/-- All PauliTransform values (axis and flip). -/
def allRotations : List PauliTransform :=
  [⟨.X, false⟩, ⟨.X, true⟩, ⟨.Y, false⟩, ⟨.Y, true⟩, ⟨.Z, false⟩, ⟨.Z, true⟩]

/-- Every valid (trans_x, trans_z) pair: all combinations with distinct
target axes (`_all_rotation_pairs` of the test file). -/
def allRotationPairs : List (PauliTransform × PauliTransform) :=
  (allRotations.flatMap fun tx => allRotations.map fun tz => (tx, tz)).filter
    fun pr => pr.1.target ≠ pr.2.target

/-- The tableaux of all single-qubit Clifford gates, one entry per
valid (trans_x, trans_z) pair. -/
def allCliffordTableaux : List (Tableau 1) :=
  allRotationPairs.map fun pr => from_xz_map pr.1 pr.2

/-- Bit of a Bool. -/
def b2n (b : Bool) : ℕ := if b then 1 else 0

/-- The single-qubit symplectic condition of the test file:
`xs[0]*zs[1] + xs[1]*zs[0]` is odd, where row 0 is the X-image and
row 1 the Z-image of the 2x2 binary matrix. -/
def symplectic1 (t : Tableau 1) : Prop :=
  (b2n ((t.xrow 0).x 0) * b2n ((t.zrow 0).z 0)
    + b2n ((t.zrow 0).x 0) * b2n ((t.xrow 0).z 0)) % 2 = 1

instance (t : Tableau 1) : Decidable (symplectic1 t) := by
  unfold symplectic1; infer_instance

/-- Index of an axis in the cyclic order X, Y, Z (`cirq.Pauli._index`). -/
def axisIdx : PauliAxis → ℕ
  | .X => 0
  | .Y => 1
  | .Z => 2

/-- `cirq.Pauli.relative_index`: relative index of `a` with respect to
`b`, in the range -1..1 (python `(a._index - b._index + 1) % 3 - 1`). -/
def relative_index (a b : PauliAxis) : ℤ :=
  ((axisIdx a + 4 - axisIdx b) % 3 : ℕ) - 1

/-- The right-handedness predicate of `_assert_not_mirror` in the test
file: the transformed frame keeps positive orientation. -/
def right_handed (tx ty tz : PauliTransform) : Bool :=
  xor tx.flip (xor ty.flip (xor tz.flip (decide (relative_index tx.target ty.target ≠ 1))))

/-- The no-collision predicate of `_assert_no_collision`: the three
image axes are pairwise distinct. -/
def no_collision (tx ty tz : PauliTransform) : Bool :=
  decide (tx.target ≠ ty.target) && decide (ty.target ≠ tz.target) && decide (tz.target ≠ tx.target)

/-- `SingleQubitCliffordGate.X`: X maps to X, Z maps to -Z. -/
def gateX : Tableau 1 := from_xz_map ⟨.X, false⟩ ⟨.Z, true⟩

/-- `SingleQubitCliffordGate.Y`. -/
def gateY : Tableau 1 := from_xz_map ⟨.X, true⟩ ⟨.Z, true⟩

/-- `SingleQubitCliffordGate.Z`. -/
def gateZ : Tableau 1 := from_xz_map ⟨.X, true⟩ ⟨.Z, false⟩

/-- `SingleQubitCliffordGate.H`: X and Z exchange. -/
def gateH : Tableau 1 := from_xz_map ⟨.Z, false⟩ ⟨.X, false⟩

/-- `SingleQubitCliffordGate.I`. -/
def gateI : Tableau 1 := from_xz_map ⟨.X, false⟩ ⟨.Z, false⟩

/-- `SingleQubitCliffordGate.X_sqrt`: +90 degrees about X. -/
def gateXsqrt : Tableau 1 := from_xz_map ⟨.X, false⟩ ⟨.Y, true⟩

/-- `SingleQubitCliffordGate.X_nsqrt`: -90 degrees about X. -/
def gateXnsqrt : Tableau 1 := from_xz_map ⟨.X, false⟩ ⟨.Y, false⟩

/-- `SingleQubitCliffordGate.Y_sqrt`. -/
def gateYsqrt : Tableau 1 := from_xz_map ⟨.Z, true⟩ ⟨.X, false⟩

/-- `SingleQubitCliffordGate.Y_nsqrt`. -/
def gateYnsqrt : Tableau 1 := from_xz_map ⟨.Z, false⟩ ⟨.X, true⟩

/-- `SingleQubitCliffordGate.Z_sqrt` (the S gate). -/
def gateZsqrt : Tableau 1 := from_xz_map ⟨.Y, false⟩ ⟨.Z, false⟩

/-- `SingleQubitCliffordGate.Z_nsqrt`. -/
def gateZnsqrt : Tableau 1 := from_xz_map ⟨.Y, true⟩ ⟨.Z, false⟩

/-- `inverse()` (spec, section 4.1): the tableau `T2` with
`T.then(T2) = identity`, found among the 24 single-qubit Clifford
tableaux. -/
def invT (g : Tableau 1) : Tableau 1 :=
  (allCliffordTableaux.find? fun u => thenT g u = idT 1).getD (idT 1)

/-- Repeated composition. -/
def npowT (g : Tableau 1) : ℕ → Tableau 1
  | 0 => idT 1
  | k + 1 => thenT (npowT g k) g

/-- Integer power by repeated composition and inversion. -/
def zpowT (g : Tableau 1) : ℤ → Tableau 1
  | .ofNat k => npowT g k
  | .negSucc k => npowT (invT g) (k + 1)

/-- The dedicated square-root family (spec, section 4.2: from a base
Pauli and a sqrt flag): exponents +1/2 and -1/2 are defined exactly on
the three Pauli gates.  The half exponents are written with `mkRat` so
that the comparison is kernel-computable; `mkRat 1 2 = 1/2` and
`mkRat (-1) 2 = -(1/2)`. -/
def sqrtFamily (e : ℚ) (g : Tableau 1) : Option (Tableau 1) :=
  if e = mkRat 1 2 then
    if g = gateX then some gateXsqrt
    else if g = gateY then some gateYsqrt
    else if g = gateZ then some gateZsqrt
    else none
  else if e = mkRat (-1) 2 then
    if g = gateX then some gateXnsqrt
    else if g = gateY then some gateYnsqrt
    else if g = gateZ then some gateZnsqrt
    else none
  else none

/-- `SingleQubitCliffordGate.__pow__`: first the dedicated sqrt family
is consulted; otherwise an integer exponent is computed by repeated
composition and inversion; any other exponent is a `TypeError`
(`none`). -/
def pow_clifford (g : Tableau 1) (e : ℚ) : Option (Tableau 1) :=
  match sqrtFamily e g with
  | some h => some h
  | none => if e.den = 1 then some (zpowT g e.num) else none

/-- The CNOT tableau (control qubit 0, target qubit 1): X0 maps to
X0 X1, X1 to X1, Z0 to Z0, Z1 to Z0 Z1, with no sign flips. -/
def cnot2 : Tableau 2 :=
  ⟨fun i =>
    if i = 0 then ⟨0, fun _ => true, fun _ => false⟩ else genX 1,
   fun i =>
    if i = 0 then genZ 0 else ⟨0, fun _ => false, fun _ => true⟩⟩

/-!
Lemmas.  First the Pauli-group algebra: `PauliElem n` with the explicit
phase cocycle is a monoid, pure phases are central, and products along
an index list behave as expected.
-/

/-- Extensionality for Pauli strings. -/
theorem pauliElem_ext {n : ℕ} {p q : PauliElem n} (h1 : p.phase = q.phase)
    (h2 : p.x = q.x) (h3 : p.z = q.z) : p = q := by
  cases p; cases q; simp_all

theorem mul_def {n : ℕ} (p q : PauliElem n) :
    p * q = ⟨p.phase + q.phase + (if sdot p.z q.x then 2 else 0),
      xorSel p.x q.x, xorSel p.z q.z⟩ := rfl

theorem one_def {n : ℕ} :
    (1 : PauliElem n) = ⟨0, fun _ => false, fun _ => false⟩ := rfl

theorem sdotL_nil {n : ℕ} (a b : Fin n → Bool) : sdotL [] a b = false := rfl

theorem sdotL_cons {n : ℕ} (i : Fin n) (l : List (Fin n)) (a b : Fin n → Bool) :
    sdotL (i :: l) a b = xor (a i && b i) (sdotL l a b) := rfl

theorem sdotL_false_left {n : ℕ} (l : List (Fin n)) (b : Fin n → Bool) :
    sdotL l (fun _ => false) b = false := by
  induction l with
  | nil => rfl
  | cons i t ih => rw [sdotL_cons, ih]; rfl

theorem sdotL_false_right {n : ℕ} (l : List (Fin n)) (a : Fin n → Bool) :
    sdotL l a (fun _ => false) = false := by
  induction l with
  | nil => rfl
  | cons i t ih => rw [sdotL_cons, ih]; simp

theorem sdotL_xorSel_left {n : ℕ} (l : List (Fin n)) (a b c : Fin n → Bool) :
    sdotL l (xorSel a b) c = xor (sdotL l a c) (sdotL l b c) := by
  induction l with
  | nil => rfl
  | cons i t ih =>
    rw [sdotL_cons, sdotL_cons, sdotL_cons, ih, xorSel]
    generalize a i = w at *
    generalize b i = x at *
    generalize c i = y at *
    generalize sdotL t a c = sa
    generalize sdotL t b c = sb
    revert w x y sa sb; decide

theorem sdotL_xorSel_right {n : ℕ} (l : List (Fin n)) (a b c : Fin n → Bool) :
    sdotL l a (xorSel b c) = xor (sdotL l a b) (sdotL l a c) := by
  induction l with
  | nil => rfl
  | cons i t ih =>
    rw [sdotL_cons, sdotL_cons, sdotL_cons, ih, xorSel]
    generalize a i = w at *
    generalize b i = x at *
    generalize c i = y at *
    generalize sdotL t a b = sa
    generalize sdotL t a c = sb
    revert w x y sa sb; decide

theorem sdot_xorSel_left {n : ℕ} (a b c : Fin n → Bool) :
    sdot (xorSel a b) c = xor (sdot a c) (sdot b c) :=
  sdotL_xorSel_left _ a b c

theorem sdot_xorSel_right {n : ℕ} (a b c : Fin n → Bool) :
    sdot a (xorSel b c) = xor (sdot a b) (sdot a c) :=
  sdotL_xorSel_right _ a b c

theorem sdot_false_left {n : ℕ} (b : Fin n → Bool) :
    sdot (fun _ => false) b = false := sdotL_false_left _ b

theorem sdot_false_right {n : ℕ} (a : Fin n → Bool) :
    sdot a (fun _ => false) = false := sdotL_false_right _ a

theorem mul_phase {n : ℕ} (p q : PauliElem n) :
    (p * q).phase = p.phase + q.phase + (if sdot p.z q.x then 2 else 0) := rfl

theorem mul_x {n : ℕ} (p q : PauliElem n) : (p * q).x = xorSel p.x q.x := rfl

theorem mul_z {n : ℕ} (p q : PauliElem n) : (p * q).z = xorSel p.z q.z := rfl

/-- Associativity of the Pauli-group law. -/
theorem pmul_assoc {n : ℕ} (p q r : PauliElem n) : p * q * r = p * (q * r) := by
  refine pauliElem_ext ?_ ?_ ?_
  · simp only [mul_phase, mul_x, mul_z, sdot_xorSel_left, sdot_xorSel_right]
    generalize p.phase = u
    generalize q.phase = v
    generalize r.phase = w
    generalize sdot p.z q.x = A
    generalize sdot p.z r.x = B
    generalize sdot q.z r.x = C
    revert u v w A B C; decide
  · simp only [mul_x]
    funext i
    simp [xorSel, Bool.xor_assoc]
  · simp only [mul_z]
    funext i
    simp [xorSel, Bool.xor_assoc]

theorem pone_mul {n : ℕ} (p : PauliElem n) : 1 * p = p := by
  refine pauliElem_ext ?_ ?_ ?_
  · show 0 + p.phase + (if sdot (fun _ => false) p.x then 2 else 0) = p.phase
    rw [sdot_false_left]; simp
  · funext i; exact Bool.false_xor _
  · funext i; exact Bool.false_xor _

theorem pmul_one {n : ℕ} (p : PauliElem n) : p * 1 = p := by
  refine pauliElem_ext ?_ ?_ ?_
  · show p.phase + 0 + (if sdot p.z (fun _ => false) then 2 else 0) = p.phase
    rw [sdot_false_right]; simp
  · funext i; exact Bool.xor_false _
  · funext i; exact Bool.xor_false _

theorem phaseElem_zero {n : ℕ} : phaseElem n 0 = 1 := rfl

theorem phaseElem_mul {n : ℕ} (u : ZMod 4) (p : PauliElem n) :
    phaseElem n u * p = ⟨u + p.phase, p.x, p.z⟩ := by
  refine pauliElem_ext ?_ ?_ ?_
  · show u + p.phase + (if sdot (fun _ => false) p.x then 2 else 0) = u + p.phase
    rw [sdot_false_left]; simp
  · funext i; exact Bool.false_xor _
  · funext i; exact Bool.false_xor _

theorem mul_phaseElem {n : ℕ} (u : ZMod 4) (p : PauliElem n) :
    p * phaseElem n u = ⟨u + p.phase, p.x, p.z⟩ := by
  refine pauliElem_ext ?_ ?_ ?_
  · show p.phase + u + (if sdot p.z (fun _ => false) then 2 else 0) = u + p.phase
    rw [sdot_false_right]; simp [add_comm]
  · funext i; exact Bool.xor_false _
  · funext i; exact Bool.xor_false _

/-- Pure phases are central. -/
theorem phaseElem_comm {n : ℕ} (u : ZMod 4) (p : PauliElem n) :
    phaseElem n u * p = p * phaseElem n u := by
  rw [phaseElem_mul, mul_phaseElem]

theorem phaseElem_mul_phaseElem {n : ℕ} (u v : ZMod 4) :
    phaseElem n u * phaseElem n v = phaseElem n (u + v) := by
  rw [phaseElem_mul]; rfl

/-- Pulling a central phase out of the right factor. -/
theorem mul_phaseElem_left {n : ℕ} (u : ZMod 4) (p q : PauliElem n) :
    p * (phaseElem n u * q) = phaseElem n u * (p * q) := by
  rw [← pmul_assoc, ← phaseElem_comm, pmul_assoc]

theorem one_phase {n : ℕ} : (1 : PauliElem n).phase = 0 := rfl

theorem one_x {n : ℕ} : (1 : PauliElem n).x = fun _ => false := rfl

theorem one_z {n : ℕ} : (1 : PauliElem n).z = fun _ => false := rfl

theorem listProd_nil {n : ℕ} (f : Fin n → PauliElem n) : listProd [] f = 1 := rfl

theorem listProd_cons {n : ℕ} (i : Fin n) (l : List (Fin n))
    (f : Fin n → PauliElem n) : listProd (i :: l) f = f i * listProd l f := rfl

theorem listProd_congr {n : ℕ} {l : List (Fin n)} {f g : Fin n → PauliElem n}
    (h : ∀ i ∈ l, f i = g i) : listProd l f = listProd l g := by
  induction l with
  | nil => rfl
  | cons i t ih =>
    rw [listProd_cons, listProd_cons, h i (List.mem_cons_self i t),
      ih fun j hj => h j (List.mem_cons_of_mem i hj)]

/-- An element commuting with every factor commutes with the product. -/
theorem mul_listProd_of_comm {n : ℕ} (a : PauliElem n) (f : Fin n → PauliElem n)
    (l : List (Fin n)) (h : ∀ i ∈ l, a * f i = f i * a) :
    a * listProd l f = listProd l f * a := by
  induction l with
  | nil => rw [listProd_nil, pone_mul, pmul_one]
  | cons i t ih =>
    rw [listProd_cons, ← pmul_assoc, h i (List.mem_cons_self i t), pmul_assoc,
      ih fun j hj => h j (List.mem_cons_of_mem i hj), ← pmul_assoc]

/-- An element commuting with every factor up to a phase commutes with
the product up to the accumulated phase. -/
theorem mul_listProd_phases {n : ℕ} (a : PauliElem n) (f : Fin n → PauliElem n)
    (c : Fin n → ZMod 4) (l : List (Fin n))
    (h : ∀ i ∈ l, a * f i = phaseElem n (c i) * (f i * a)) :
    a * listProd l f =
      phaseElem n (l.foldr (fun i acc => c i + acc) 0) * (listProd l f * a) := by
  induction l with
  | nil =>
    rw [listProd_nil, pmul_one, List.foldr_nil, phaseElem_zero, pone_mul, pone_mul]
  | cons i t ih =>
    have ht : ∀ j ∈ t, a * f j = phaseElem n (c j) * (f j * a) :=
      fun j hj => h j (List.mem_cons_of_mem i hj)
    calc a * listProd (i :: t) f
        = (a * f i) * listProd t f := by rw [listProd_cons, pmul_assoc]
      _ = (phaseElem n (c i) * (f i * a)) * listProd t f := by
          rw [h i (List.mem_cons_self i t)]
      _ = phaseElem n (c i) * (f i * (a * listProd t f)) := by
          rw [pmul_assoc, pmul_assoc]
      _ = phaseElem n (c i) *
            (f i * (phaseElem n (t.foldr (fun j acc => c j + acc) 0) *
              (listProd t f * a))) := by rw [ih ht]
      _ = phaseElem n (c i) *
            (phaseElem n (t.foldr (fun j acc => c j + acc) 0) *
              (f i * (listProd t f * a))) := by rw [mul_phaseElem_left]
      _ = phaseElem n ((i :: t).foldr (fun j acc => c j + acc) 0) *
            (listProd (i :: t) f * a) := by
          rw [← pmul_assoc, phaseElem_mul_phaseElem, List.foldr_cons,
            listProd_cons, pmul_assoc]

theorem selProd_nil {n : ℕ} (rows : Fin n → PauliElem n) (s : Fin n → Bool) :
    selProd [] rows s = 1 := rfl

theorem selProd_cons {n : ℕ} (i : Fin n) (l : List (Fin n))
    (rows : Fin n → PauliElem n) (s : Fin n → Bool) :
    selProd (i :: l) rows s = (if s i then rows i else 1) * selProd l rows s := rfl

/-- Product of two selector products over commuting involutions: the
selectors combine by xor. -/
theorem selProd_mul_selProd {n : ℕ} (rows : Fin n → PauliElem n)
    (hc : ∀ i j, rows i * rows j = rows j * rows i)
    (hs : ∀ i, rows i * rows i = 1) (l : List (Fin n)) (s1 s2 : Fin n → Bool) :
    selProd l rows s1 * selProd l rows s2 = selProd l rows (xorSel s1 s2) := by
  induction l with
  | nil => rw [selProd_nil, selProd_nil, selProd_nil, pmul_one]
  | cons i t ih =>
    rw [selProd_cons, selProd_cons, selProd_cons]
    have hcomm : (if s2 i then rows i else 1) * selProd t rows s1 =
        selProd t rows s1 * (if s2 i then rows i else 1) := by
      refine mul_listProd_of_comm _ _ _ fun j _ => ?_
      by_cases h1 : s1 j <;> by_cases h2 : s2 i <;>
        simp [h1, h2, pone_mul, pmul_one, hc]
    have hstep : (if s1 i then rows i else 1) * (if s2 i then rows i else 1) =
        if xorSel s1 s2 i then rows i else 1 := by
      by_cases h1 : s1 i <;> by_cases h2 : s2 i <;>
        simp [xorSel, h1, h2, pone_mul, pmul_one, hs]
    calc ((if s1 i then rows i else 1) * selProd t rows s1) *
          ((if s2 i then rows i else 1) * selProd t rows s2)
        = (if s1 i then rows i else 1) *
            (((if s2 i then rows i else 1) * selProd t rows s1) *
              selProd t rows s2) := by
          rw [pmul_assoc, ← pmul_assoc (selProd t rows s1), ← hcomm]
      _ = ((if s1 i then rows i else 1) * (if s2 i then rows i else 1)) *
            (selProd t rows s1 * selProd t rows s2) := by
          simp only [pmul_assoc]
      _ = (if xorSel s1 s2 i then rows i else 1) *
            selProd t rows (xorSel s1 s2) := by rw [hstep, ih]

/-- A sum of phase contributions that all vanish. -/
theorem foldr_add_eq_zero {n : ℕ} (c : Fin n → ZMod 4) (l : List (Fin n))
    (h : ∀ i ∈ l, c i = 0) : l.foldr (fun i acc => c i + acc) 0 = 0 := by
  induction l with
  | nil => rfl
  | cons i t ih =>
    rw [List.foldr_cons, h i (List.mem_cons_self i t),
      ih fun j hj => h j (List.mem_cons_of_mem i hj), add_zero]

/-- A sum of phase contributions supported on a single index of a
duplicate-free list. -/
theorem foldr_add_single {n : ℕ} (g : Fin n → Bool) (i : Fin n)
    (l : List (Fin n)) (hnd : l.Nodup) (hmem : i ∈ l) :
    l.foldr (fun j acc => (if g j && decide (j = i) then (2 : ZMod 4) else 0) + acc) 0
      = if g i then 2 else 0 := by
  induction l with
  | nil => cases hmem
  | cons j t ih =>
    rcases List.mem_cons.mp hmem with heq | hm
    · subst heq
      have hnotin : i ∉ t := (List.nodup_cons.mp hnd).1
      have hzero : t.foldr
          (fun k acc => (if g k && decide (k = i) then (2 : ZMod 4) else 0) + acc) 0
            = 0 := by
        refine foldr_add_eq_zero _ t fun k hk => ?_
        have hne : k ≠ i := fun h => hnotin (h ▸ hk)
        simp [hne]
      rw [List.foldr_cons, hzero, add_zero]
      simp
    · have hne : j ≠ i := by
        rintro rfl
        exact (List.nodup_cons.mp hnd).1 hm
      rw [List.foldr_cons, ih (List.nodup_cons.mp hnd).2 hm]
      simp [hne]

theorem cond_xor_add (a b : Bool) :
    (if xor a b then (2 : ZMod 4) else 0) =
      (if a then 2 else 0) + (if b then 2 else 0) := by
  revert a b; decide

/-- Moving a selector product of Z rows across the full selector
product of X rows: each overlapping qubit contributes a sign. -/
theorem zsel_mul_xprod {n : ℕ} (t : Tableau n)
    (hcross : ∀ i j, i ≠ j → t.zrow i * t.xrow j = t.xrow j * t.zrow i)
    (hanti : ∀ i, t.zrow i * t.xrow i = phaseElem n 2 * (t.xrow i * t.zrow i))
    (xs : Fin n → Bool) (l : List (Fin n)) (zs : Fin n → Bool) :
    selProd l t.zrow zs * selProd (List.finRange n) t.xrow xs =
      phaseElem n (if sdotL l zs xs then 2 else 0) *
        (selProd (List.finRange n) t.xrow xs * selProd l t.zrow zs) := by
  induction l with
  | nil =>
    rw [selProd_nil, pone_mul, pmul_one, sdotL_nil, if_neg Bool.false_ne_true,
      phaseElem_zero, pone_mul]
  | cons i l' ih =>
    have harg : ∀ j ∈ List.finRange n,
        t.zrow i * (if xs j then t.xrow j else 1) =
          phaseElem n (if xs j && decide (j = i) then 2 else 0) *
            ((if xs j then t.xrow j else 1) * t.zrow i) := by
      intro j _
      by_cases hx : xs j
      · by_cases hj : j = i
        · subst hj
          simpa [hx] using hanti j
        · simp [hx, hj, phaseElem_zero, pone_mul,
            hcross i j fun hij => hj hij.symm]
      · simp [hx, phaseElem_zero, pmul_one, pone_mul]
    have hmove : t.zrow i * selProd (List.finRange n) t.xrow xs =
        phaseElem n (if xs i then 2 else 0) *
          (selProd (List.finRange n) t.xrow xs * t.zrow i) := by
      have h := mul_listProd_phases (t.zrow i)
        (fun j => if xs j then t.xrow j else 1)
        (fun j => if xs j && decide (j = i) then 2 else 0)
        (List.finRange n) harg
      rw [foldr_add_single xs i (List.finRange n) (List.nodup_finRange n)
        (List.mem_finRange i)] at h
      exact h
    by_cases hz : zs i = true
    · have hphase : (if sdotL (i :: l') zs xs then (2 : ZMod 4) else 0) =
          (if xs i then 2 else 0) + (if sdotL l' zs xs then 2 else 0) := by
        rw [sdotL_cons, cond_xor_add, hz, Bool.true_and]
      rw [selProd_cons, if_pos hz, hphase]
      calc (t.zrow i * selProd l' t.zrow zs) * selProd (List.finRange n) t.xrow xs
          = t.zrow i * (selProd l' t.zrow zs * selProd (List.finRange n) t.xrow xs) := by
            rw [pmul_assoc]
        _ = t.zrow i * (phaseElem n (if sdotL l' zs xs then 2 else 0) *
              (selProd (List.finRange n) t.xrow xs * selProd l' t.zrow zs)) := by
            rw [ih]
        _ = phaseElem n (if sdotL l' zs xs then 2 else 0) *
              ((t.zrow i * selProd (List.finRange n) t.xrow xs) *
                selProd l' t.zrow zs) := by
            rw [mul_phaseElem_left, ← pmul_assoc (t.zrow i)]
        _ = phaseElem n (if sdotL l' zs xs then 2 else 0) *
              (phaseElem n (if xs i then 2 else 0) *
                ((selProd (List.finRange n) t.xrow xs * t.zrow i) *
                  selProd l' t.zrow zs)) := by
            rw [hmove]
            simp only [pmul_assoc]
        _ = phaseElem n ((if xs i then (2 : ZMod 4) else 0) +
              (if sdotL l' zs xs then (2 : ZMod 4) else 0)) *
              (selProd (List.finRange n) t.xrow xs *
                (t.zrow i * selProd l' t.zrow zs)) := by
            rw [← pmul_assoc (phaseElem n _), phaseElem_mul_phaseElem,
              add_comm (if sdotL l' zs xs then (2 : ZMod 4) else 0)]
            simp only [pmul_assoc]
    · rw [Bool.not_eq_true] at hz
      have hphase : (if sdotL (i :: l') zs xs then (2 : ZMod 4) else 0) =
          (if sdotL l' zs xs then 2 else 0) := by
        rw [sdotL_cons, hz, Bool.false_and, Bool.false_xor]
      rw [selProd_cons, hz, if_neg (by simp), pone_mul, hphase, ih]

theorem selProd_all_false {n : ℕ} (l : List (Fin n))
    (rows : Fin n → PauliElem n) : selProd l rows (fun _ => false) = 1 := by
  induction l with
  | nil => rfl
  | cons i t ih => rw [selProd_cons, ih, if_neg (by simp), pone_mul]

theorem applyElem_one {n : ℕ} (t : Tableau n) : applyElem t 1 = 1 := by
  show phaseElem n 0 *
    (selProd (List.finRange n) t.xrow (fun _ => false) *
      selProd (List.finRange n) t.zrow (fun _ => false)) = 1
  rw [selProd_all_false, selProd_all_false, phaseElem_zero, pone_mul, pone_mul]

theorem phase_mul_mul {n : ℕ} (u v : ZMod 4) (a b : PauliElem n) :
    (phaseElem n u * a) * (phaseElem n v * b) = phaseElem n (u + v) * (a * b) := by
  rw [pmul_assoc, mul_phaseElem_left, ← pmul_assoc (phaseElem n u),
    phaseElem_mul_phaseElem]

/-- The transformation recorded by a valid tableau is multiplicative:
the symplectic invariant is exactly what makes substituting row images
for generators a group homomorphism. -/
theorem applyElem_mul {n : ℕ} (t : Tableau n) (hv : Valid t)
    (p q : PauliElem n) :
    applyElem t (p * q) = applyElem t p * applyElem t q := by
  obtain ⟨hxc, hxs, hzc, hzs, hcross, hanti⟩ := hv
  have hzx : selProd (List.finRange n) t.zrow p.z *
      selProd (List.finRange n) t.xrow q.x =
      phaseElem n (if sdot p.z q.x then 2 else 0) *
        (selProd (List.finRange n) t.xrow q.x *
          selProd (List.finRange n) t.zrow p.z) :=
    zsel_mul_xprod t hcross hanti q.x (List.finRange n) p.z
  have hmid : (selProd (List.finRange n) t.xrow p.x *
        selProd (List.finRange n) t.zrow p.z) *
      (selProd (List.finRange n) t.xrow q.x *
        selProd (List.finRange n) t.zrow q.z) =
      phaseElem n (if sdot p.z q.x then 2 else 0) *
        ((selProd (List.finRange n) t.xrow p.x *
            selProd (List.finRange n) t.xrow q.x) *
          (selProd (List.finRange n) t.zrow p.z *
            selProd (List.finRange n) t.zrow q.z)) := by
    calc (selProd (List.finRange n) t.xrow p.x *
          selProd (List.finRange n) t.zrow p.z) *
        (selProd (List.finRange n) t.xrow q.x *
          selProd (List.finRange n) t.zrow q.z)
        = selProd (List.finRange n) t.xrow p.x *
            ((selProd (List.finRange n) t.zrow p.z *
              selProd (List.finRange n) t.xrow q.x) *
            selProd (List.finRange n) t.zrow q.z) := by
          rw [pmul_assoc, ← pmul_assoc (selProd (List.finRange n) t.zrow p.z)]
      _ = selProd (List.finRange n) t.xrow p.x *
            ((phaseElem n (if sdot p.z q.x then 2 else 0) *
              (selProd (List.finRange n) t.xrow q.x *
                selProd (List.finRange n) t.zrow p.z)) *
            selProd (List.finRange n) t.zrow q.z) := by rw [hzx]
      _ = phaseElem n (if sdot p.z q.x then 2 else 0) *
            (selProd (List.finRange n) t.xrow p.x *
              (selProd (List.finRange n) t.xrow q.x *
                (selProd (List.finRange n) t.zrow p.z *
                  selProd (List.finRange n) t.zrow q.z))) := by
          simp only [pmul_assoc, mul_phaseElem_left]
      _ = phaseElem n (if sdot p.z q.x then 2 else 0) *
            ((selProd (List.finRange n) t.xrow p.x *
                selProd (List.finRange n) t.xrow q.x) *
              (selProd (List.finRange n) t.zrow p.z *
                selProd (List.finRange n) t.zrow q.z)) := by
          simp only [pmul_assoc]
  show phaseElem n (p.phase + q.phase + (if sdot p.z q.x then 2 else 0)) *
      (selProd (List.finRange n) t.xrow (xorSel p.x q.x) *
        selProd (List.finRange n) t.zrow (xorSel p.z q.z)) =
    (phaseElem n p.phase *
      (selProd (List.finRange n) t.xrow p.x *
        selProd (List.finRange n) t.zrow p.z)) *
    (phaseElem n q.phase *
      (selProd (List.finRange n) t.xrow q.x *
        selProd (List.finRange n) t.zrow q.z))
  rw [phase_mul_mul, hmid, ← pmul_assoc (phaseElem n (p.phase + q.phase)),
    phaseElem_mul_phaseElem, ← selProd_mul_selProd t.xrow hxc hxs,
    ← selProd_mul_selProd t.zrow hzc hzs]

/-- The transformation is equivariant for scalar phases. -/
theorem applyElem_phaseMul {n : ℕ} (t : Tableau n) (u : ZMod 4)
    (p : PauliElem n) :
    applyElem t (phaseElem n u * p) = phaseElem n u * applyElem t p := by
  rw [phaseElem_mul]
  show phaseElem n (u + p.phase) *
      (selProd (List.finRange n) t.xrow p.x *
        selProd (List.finRange n) t.zrow p.z) =
    phaseElem n u * (phaseElem n p.phase *
      (selProd (List.finRange n) t.xrow p.x *
        selProd (List.finRange n) t.zrow p.z))
  rw [← pmul_assoc (phaseElem n u), phaseElem_mul_phaseElem]

theorem applyElem_listProd {n : ℕ} (t : Tableau n) (hv : Valid t)
    (f : Fin n → PauliElem n) (l : List (Fin n)) :
    applyElem t (listProd l f) = listProd l fun i => applyElem t (f i) := by
  induction l with
  | nil => rw [listProd_nil, listProd_nil, applyElem_one]
  | cons i l' ih => rw [listProd_cons, applyElem_mul t hv, ih, listProd_cons]

theorem applyElem_selProd {n : ℕ} (t : Tableau n) (hv : Valid t)
    (rows : Fin n → PauliElem n) (s : Fin n → Bool) (l : List (Fin n)) :
    applyElem t (selProd l rows s) =
      selProd l (fun i => applyElem t (rows i)) s := by
  simp only [selProd]
  rw [applyElem_listProd t hv]
  refine listProd_congr fun i _ => ?_
  by_cases h : s i <;> simp [h, applyElem_one]

/-- Reconstruction: the selected product of X generators is the Pauli
string with exactly that X support. -/
theorem selProd_genX {n : ℕ} (l : List (Fin n)) (hnd : l.Nodup)
    (s : Fin n → Bool) :
    selProd l genX s = ⟨0, fun j => s j && decide (j ∈ l), fun _ => false⟩ := by
  induction l with
  | nil =>
    refine pauliElem_ext rfl ?_ rfl
    funext j
    show false = (s j && decide (j ∈ ([] : List (Fin n))))
    simp
  | cons i t ih =>
    have hi : i ∉ t := (List.nodup_cons.mp hnd).1
    rw [selProd_cons, ih (List.nodup_cons.mp hnd).2]
    by_cases hs : s i
    · rw [if_pos hs]
      refine pauliElem_ext ?_ ?_ ?_
      · show 0 + 0 + (if sdot (genX i).z _ then 2 else 0) = 0
        have : (genX i).z = fun _ => false := rfl
        rw [this, sdot_false_left]; simp
      · funext j
        show xor (decide (j = i)) (s j && decide (j ∈ t)) =
          (s j && decide (j ∈ i :: t))
        by_cases hj : j = i
        · subst hj; simp [hi, hs]
        · simp [hj]
      · funext j
        show xor false false = false
        rfl
    · rw [if_neg hs, pone_mul]
      refine pauliElem_ext rfl ?_ rfl
      funext j
      show (s j && decide (j ∈ t)) = (s j && decide (j ∈ i :: t))
      by_cases hj : j = i
      · subst hj
        have hs' : s j = false := by simpa using hs
        simp [hs']
      · simp [hj]

/-- Reconstruction: the selected product of Z generators is the Pauli
string with exactly that Z support. -/
theorem selProd_genZ {n : ℕ} (l : List (Fin n)) (hnd : l.Nodup)
    (s : Fin n → Bool) :
    selProd l genZ s = ⟨0, fun _ => false, fun j => s j && decide (j ∈ l)⟩ := by
  induction l with
  | nil =>
    refine pauliElem_ext rfl rfl ?_
    funext j
    show false = (s j && decide (j ∈ ([] : List (Fin n))))
    simp
  | cons i t ih =>
    have hi : i ∉ t := (List.nodup_cons.mp hnd).1
    rw [selProd_cons, ih (List.nodup_cons.mp hnd).2]
    by_cases hs : s i
    · rw [if_pos hs]
      refine pauliElem_ext ?_ ?_ ?_
      · show 0 + 0 + (if sdot (genZ i).z (fun _ => false) then 2 else 0) = 0
        rw [sdot_false_right]; simp
      · funext j
        show xor false false = false
        rfl
      · funext j
        show xor (decide (j = i)) (s j && decide (j ∈ t)) =
          (s j && decide (j ∈ i :: t))
        by_cases hj : j = i
        · subst hj; simp [hi, hs]
        · simp [hj]
    · rw [if_neg hs, pone_mul]
      refine pauliElem_ext rfl rfl ?_
      funext j
      show (s j && decide (j ∈ t)) = (s j && decide (j ∈ i :: t))
      by_cases hj : j = i
      · subst hj
        have hs' : s j = false := by simpa using hs
        simp [hs']
      · simp [hj]

/-- The identity tableau transforms every Pauli string to itself. -/
theorem applyElem_idT {n : ℕ} (p : PauliElem n) : applyElem (idT n) p = p := by
  show phaseElem n p.phase *
      (selProd (List.finRange n) genX p.x * selProd (List.finRange n) genZ p.z) = p
  rw [selProd_genX (List.finRange n) (List.nodup_finRange n) p.x,
    selProd_genZ (List.finRange n) (List.nodup_finRange n) p.z]
  have hx : (fun j => p.x j && decide (j ∈ List.finRange n)) = p.x := by
    funext j; simp [List.mem_finRange]
  have hz : (fun j => p.z j && decide (j ∈ List.finRange n)) = p.z := by
    funext j; simp [List.mem_finRange]
  rw [hx, hz]
  have hm : (⟨0, p.x, fun _ => false⟩ : PauliElem n) * ⟨0, fun _ => false, p.z⟩ =
      ⟨0, p.x, p.z⟩ := by
    refine pauliElem_ext ?_ ?_ ?_
    · show 0 + 0 + (if sdot (fun _ => false) (fun _ => false) then 2 else 0) = 0
      rw [sdot_false_left]; simp
    · funext j; show xor (p.x j) false = p.x j; simp
    · funext j; show xor false (p.z j) = p.z j; simp
  rw [hm, phaseElem_mul]
  refine pauliElem_ext ?_ rfl rfl
  exact add_zero _

/-- Extensionality for tableaux. -/
theorem tableau_ext {n : ℕ} {s t : Tableau n} (h1 : s.xrow = t.xrow)
    (h2 : s.zrow = t.zrow) : s = t := by
  cases s; cases t; simp_all

/-- The identity tableau is a right unit for composition. -/
theorem thenT_idT {n : ℕ} (t : Tableau n) : thenT t (idT n) = t :=
  tableau_ext (funext fun i => applyElem_idT (t.xrow i))
    (funext fun i => applyElem_idT (t.zrow i))

/-- Applying a composed tableau is applying the two stages in turn
(the second stage must be valid for substitution to distribute). -/
theorem applyElem_thenT {n : ℕ} (u v : Tableau n) (hv : Valid v)
    (p : PauliElem n) :
    applyElem (thenT u v) p = applyElem v (applyElem u p) := by
  conv_rhs =>
    rw [show applyElem u p = phaseElem n p.phase *
      (selProd (List.finRange n) u.xrow p.x *
        selProd (List.finRange n) u.zrow p.z) from rfl]
  rw [applyElem_phaseMul, applyElem_mul v hv, applyElem_selProd v hv,
    applyElem_selProd v hv]
  rfl

/-- `then` is associative (spec, section 4.1 contract), given the
symplectic invariant of the outermost tableau. -/
theorem thenT_assoc {n : ℕ} (t u v : Tableau n) (hv : Valid v) :
    thenT (thenT t u) v = thenT t (thenT u v) :=
  tableau_ext (funext fun i => (applyElem_thenT u v hv (t.xrow i)).symm)
    (funext fun i => (applyElem_thenT u v hv (t.zrow i)).symm)

/-- Folding a list of valid gate tableaux into a state tableau equals
composing the state with the compiled fold of the gates. -/
theorem foldl_thenT_eq {n : ℕ} (gs : List (Tableau n)) :
    (∀ g ∈ gs, Valid g) → ∀ T : Tableau n,
      gs.foldl thenT T = thenT T (gs.foldl thenT (idT n)) := by
  induction gs using List.reverseRecOn with
  | nil =>
    intro _ T
    simpa using (thenT_idT T).symm
  | append_singleton gs g ih =>
    intro hv T
    rw [List.foldl_append, List.foldl_append, List.foldl_cons, List.foldl_nil,
      List.foldl_cons, List.foldl_nil,
      ih (fun x hx => hv x (List.mem_append_left _ hx)) T,
      thenT_assoc T (gs.foldl thenT (idT n)) g
        (hv g (List.mem_append_right _ (List.mem_cons_self g [])))]

/-!
Lemmas on the kraus-selection loop of `apply_channel`.
-/

theorem getD_cons_zero {α : Type} (a : α) (l : List α) (d : α) :
    (a :: l).getD 0 d = a := rfl

theorem getD_cons_succ {α : Type} (a : α) (l : List α) (k : ℕ) (d : α) :
    (a :: l).getD (k + 1) d = l.getD k d := rfl

theorem channelWeights_getD (st : StateVec) :
    ∀ (ks : List KrausMat) (j : ℕ),
      (channelWeights ks st).getD j 0 = normSq (matVec (ks.getD j []) st)
  | [], _ => rfl
  | _ :: _, 0 => rfl
  | _ :: t, j + 1 => channelWeights_getD st t j

theorem channelWeights_length (ks : List KrausMat) (st : StateVec) :
    (channelWeights ks st).length = ks.length := List.length_map _ _

theorem normSq_nonneg (v : StateVec) : 0 ≤ normSq v := by
  refine List.sum_nonneg fun x hx => ?_
  obtain ⟨a, _, rfl⟩ := List.mem_map.mp hx
  positivity

theorem channelWeights_nonneg (ks : List KrausMat) (st : StateVec) :
    ∀ w ∈ channelWeights ks st, 0 ≤ w := by
  intro w hw
  obtain ⟨k, _, rfl⟩ := List.mem_map.mp hw
  exact normSq_nonneg _

/-- One unfolding step of the selection loop. -/
theorem chanLoop_cons (w : ℚ) (ws : List ℚ) (i : ℕ) (p fw : ℚ) (fi : ℕ) :
    chanLoop (w :: ws) i p fw fi =
      if p - w < 0 then
        some ⟨p - w, i, w, if w > fw then w else fw, if w > fw then i else fi⟩
      else
        match chanLoop ws (i + 1) (p - w) (if w > fw then w else fw)
            (if w > fw then i else fi) with
        | none => some ⟨p - w, i, w, if w > fw then w else fw,
            if w > fw then i else fi⟩
        | some out => some out := rfl

/-- A nonempty weight list always produces a loop result (the assertion
can only fail on an empty kraus list). -/
theorem chanLoop_cons_ne_none (w : ℚ) (ws : List ℚ) (i : ℕ) (p fw : ℚ)
    (fi : ℕ) : chanLoop (w :: ws) i p fw fi ≠ none := by
  rw [chanLoop_cons]
  split
  · simp
  · split <;> simp

/-- One unfolding step of the fallback scan. -/
theorem fbScan_cons (w : ℚ) (ws : List ℚ) (i : ℕ) (fw : ℚ) (fi : ℕ) :
    fbScan (w :: ws) i fw fi =
      fbScan ws (i + 1) (if w > fw then w else fw) (if w > fw then i else fi) := by
  by_cases h : w > fw <;> simp [fbScan, h]

/-- When the cumulative weights never cross the draw, the loop visits
every operator and ends holding the last index and weight together with
the full fallback scan. -/
theorem chanLoop_no_cross :
    ∀ (ws : List ℚ) (i : ℕ) (p fw : ℚ) (fi : ℕ), ws ≠ [] →
      (∀ w ∈ ws, 0 ≤ w) → 0 ≤ p - ws.sum →
      chanLoop ws i p fw fi =
        some ⟨p - ws.sum, i + (ws.length - 1), ws.getD (ws.length - 1) 0,
          (fbScan ws i fw fi).1, (fbScan ws i fw fi).2⟩
  | [], _, _, _, _, hne, _, _ => absurd rfl hne
  | w :: ws, i, p, fw, fi, _, hnn, hsum => by
    have hws : 0 ≤ ws.sum :=
      List.sum_nonneg fun x hx => hnn x (List.mem_cons_of_mem w hx)
    have hsum' : 0 ≤ p - (w + ws.sum) := by rwa [List.sum_cons] at hsum
    have hnb : ¬(p - w < 0) := by linarith
    rw [chanLoop_cons, if_neg hnb]
    rcases eq_or_ne ws [] with rfl | hne
    · have hfb : fbScan [w] i fw fi =
          (if w > fw then w else fw, if w > fw then i else fi) := by
        rw [fbScan_cons]; rfl
      have hsum1 : ([w] : List ℚ).sum = w := by simp
      show (some ⟨p - w, i, w, if w > fw then w else fw,
          if w > fw then i else fi⟩ : Option ChanLoopOut) =
        some ⟨p - ([w] : List ℚ).sum, i + (([w] : List ℚ).length - 1),
          ([w] : List ℚ).getD (([w] : List ℚ).length - 1) 0,
          (fbScan [w] i fw fi).1, (fbScan [w] i fw fi).2⟩
      rw [hfb, hsum1]
      rfl
    · rw [chanLoop_no_cross ws (i + 1) (p - w)
        (if w > fw then w else fw) (if w > fw then i else fi) hne
        (fun x hx => hnn x (List.mem_cons_of_mem w hx)) (by linarith)]
      have hlpos : 0 < ws.length := List.length_pos.mpr hne
      have h1 : p - (w :: ws).sum = p - w - ws.sum := by
        rw [List.sum_cons]; ring
      have h2 : i + ((w :: ws).length - 1) = i + 1 + (ws.length - 1) := by
        simp only [List.length_cons]; omega
      have h3 : (w :: ws).getD ((w :: ws).length - 1) 0 =
          ws.getD (ws.length - 1) 0 := by
        have he : (w :: ws).length - 1 = (ws.length - 1) + 1 := by
          simp only [List.length_cons]; omega
        rw [he, getD_cons_succ]
      rw [h1, h2, h3, fbScan_cons]

/-- When the cumulative weight first crosses the draw at index `j`, the
loop breaks there, holding index `j` and its weight. -/
theorem chanLoop_cross :
    ∀ (ws : List ℚ) (i : ℕ) (p fw : ℚ) (fi : ℕ) (j : ℕ),
      j < ws.length → ((ws.take (j + 1)).sum > p) →
      (∀ k < j, (ws.take (k + 1)).sum ≤ p) →
      chanLoop ws i p fw fi =
        some ⟨p - (ws.take (j + 1)).sum, i + j, ws.getD j 0,
          (fbScan (ws.take (j + 1)) i fw fi).1,
          (fbScan (ws.take (j + 1)) i fw fi).2⟩
  | [], _, _, _, _, j, hj, _, _ => absurd hj (by simp)
  | w :: ws, i, p, fw, fi, 0, _, hcross, _ => by
    have ht : (w :: ws).take 1 = [w] := rfl
    rw [ht] at hcross ⊢
    have hb : p - w < 0 := by
      simp only [List.sum_cons, List.sum_nil, add_zero] at hcross
      linarith
    rw [chanLoop_cons, if_pos hb]
    have hfb : fbScan [w] i fw fi =
        (if w > fw then w else fw, if w > fw then i else fi) := by
      rw [fbScan_cons]; rfl
    have hsum1 : ([w] : List ℚ).sum = w := by simp
    rw [hfb, hsum1]
    rfl
  | w :: ws, i, p, fw, fi, j + 1, hj, hcross, hbefore => by
    have h0 : w ≤ p := by
      have := hbefore 0 (Nat.succ_pos j)
      simpa using this
    have hnb : ¬(p - w < 0) := by linarith
    rw [chanLoop_cons, if_neg hnb]
    have hcross' : (ws.take (j + 1)).sum > p - w := by
      rw [List.take_succ_cons, List.sum_cons] at hcross
      linarith
    have hbefore' : ∀ k < j, (ws.take (k + 1)).sum ≤ p - w := by
      intro k hk
      have := hbefore (k + 1) (Nat.succ_lt_succ hk)
      rw [List.take_succ_cons, List.sum_cons] at this
      linarith
    rw [chanLoop_cross ws (i + 1) (p - w)
      (if w > fw then w else fw) (if w > fw then i else fi) j
      (Nat.lt_of_succ_lt_succ hj) hcross' hbefore']
    have h1 : p - ((w :: ws).take (j + 2)).sum = p - w - (ws.take (j + 1)).sum := by
      rw [List.take_succ_cons, List.sum_cons]; ring
    have h2 : i + (j + 1) = i + 1 + j := by omega
    have h3 : (w :: ws).getD (j + 1) 0 = ws.getD j 0 := getD_cons_succ _ _ _ _
    have h4 : (w :: ws).take (j + 2) = w :: ws.take (j + 1) := List.take_succ_cons
    rw [h1, h2, h3, h4, fbScan_cons]

/-- Full description of a completed loop: the result always holds some
index `k`, its weight, and the fallback scan of the visited prefix. -/
theorem chanLoop_shape :
    ∀ (ws : List ℚ) (i : ℕ) (p fw : ℚ) (fi : ℕ) (out : ChanLoopOut),
      chanLoop ws i p fw fi = some out →
      ∃ k < ws.length, out.index = i + k ∧ out.weight = ws.getD k 0 ∧
        (out.fallback_weight, out.fallback_weight_index) =
          fbScan (ws.take (k + 1)) i fw fi
  | [], _, _, _, _, _, h => by simp [chanLoop] at h
  | w :: ws, i, p, fw, fi, out, h => by
    rw [chanLoop_cons] at h
    by_cases hb : p - w < 0
    · rw [if_pos hb] at h
      cases h
      refine ⟨0, by simp, by simp, rfl, ?_⟩
      show _ = fbScan ((w :: ws).take 1) i fw fi
      rw [show (w :: ws).take 1 = [w] from rfl, fbScan_cons]
      rfl
    · rw [if_neg hb] at h
      cases hrec : chanLoop ws (i + 1) (p - w)
          (if w > fw then w else fw) (if w > fw then i else fi) with
      | none =>
        rw [hrec] at h
        cases h
        refine ⟨0, by simp, by simp, rfl, ?_⟩
        show _ = fbScan ((w :: ws).take 1) i fw fi
        rw [show (w :: ws).take 1 = [w] from rfl, fbScan_cons]
        rfl
      | some out2 =>
        rw [hrec] at h
        cases h
        obtain ⟨k, hk, h1, h2, h3⟩ :=
          chanLoop_shape ws (i + 1) (p - w) _ _ _ hrec
        refine ⟨k + 1, Nat.succ_lt_succ hk, ?_, ?_, ?_⟩
        · rw [h1]; omega
        · rw [h2, getD_cons_succ]
        · rw [h3, show (w :: ws).take (k + 2) = w :: ws.take (k + 1)
            from List.take_succ_cons, fbScan_cons]

theorem fbScan_fst : ∀ (ws : List ℚ) (i : ℕ) (fw : ℚ) (fi : ℕ),
    (fbScan ws i fw fi).1 = ws.foldl max fw
  | [], _, _, _ => rfl
  | w :: ws, i, fw, fi => by
    rw [fbScan_cons, List.foldl_cons, fbScan_fst ws]
    congr 1
    by_cases h : w > fw
    · rw [if_pos h, max_eq_right (le_of_lt h)]
    · rw [if_neg h, max_eq_left (le_of_not_lt h)]

/-- The fallback scan returns the first index attaining the maximum of
the observed weights (or the initial pair when nothing exceeds the
initial weight). -/
theorem fbScan_spec :
    ∀ (ws : List ℚ) (i : ℕ) (fw : ℚ) (fi : ℕ),
      ((∀ w ∈ ws, w ≤ fw) → fbScan ws i fw fi = (fw, fi)) ∧
      ((∃ w ∈ ws, fw < w) → ∃ k < ws.length,
        (fbScan ws i fw fi).2 = i + k ∧
        ws.getD k 0 = (fbScan ws i fw fi).1 ∧
        (∀ j < k, ws.getD j 0 < (fbScan ws i fw fi).1) ∧
        fw < (fbScan ws i fw fi).1)
  | [], i, fw, fi => ⟨fun _ => rfl, fun ⟨w, hw, _⟩ => absurd hw (by simp)⟩
  | w :: ws, i, fw, fi => by
    constructor
    · intro hle
      have hw : ¬(w > fw) := not_lt.mpr (hle w (List.mem_cons_self w ws))
      rw [fbScan_cons, if_neg hw, if_neg hw]
      exact (fbScan_spec ws (i + 1) fw fi).1
        fun x hx => hle x (List.mem_cons_of_mem w hx)
    · intro hex
      by_cases hw : w > fw
      · rw [fbScan_cons, if_pos hw, if_pos hw]
        by_cases hall : ∀ x ∈ ws, x ≤ w
        · have heq := (fbScan_spec ws (i + 1) w i).1 hall
          refine ⟨0, by simp, ?_, ?_, ?_, ?_⟩
          · rw [heq]
            rfl
          · rw [heq, getD_cons_zero]
          · intro j hj; exact absurd hj (Nat.not_lt_zero j)
          · rw [heq]; exact hw
        · push_neg at hall
          obtain ⟨k, hk, h1, h2, h3, h4⟩ :=
            (fbScan_spec ws (i + 1) w i).2 hall
          refine ⟨k + 1, Nat.succ_lt_succ (by simpa using hk), ?_, ?_, ?_, ?_⟩
          · rw [h1]; omega
          · rw [getD_cons_succ]; exact h2
          · intro j hj
            cases j with
            | zero => rw [getD_cons_zero]; exact h4
            | succ j' => rw [getD_cons_succ]; exact h3 j' (Nat.lt_of_succ_lt_succ hj)
          · exact lt_trans hw h4
      · rw [fbScan_cons, if_neg hw, if_neg hw]
        have hex' : ∃ x ∈ ws, fw < x := by
          obtain ⟨x, hx, hfx⟩ := hex
          rcases List.mem_cons.mp hx with rfl | hx'
          · exact absurd hfx hw
          · exact ⟨x, hx', hfx⟩
        obtain ⟨k, hk, h1, h2, h3, h4⟩ := (fbScan_spec ws (i + 1) fw fi).2 hex'
        refine ⟨k + 1, Nat.succ_lt_succ (by simpa using hk), ?_, ?_, ?_, ?_⟩
        · rw [h1]; omega
        · rw [getD_cons_succ]; exact h2
        · intro j hj
          cases j with
          | zero => rw [getD_cons_zero]; exact lt_of_le_of_lt (not_lt.mp hw) h4
          | succ j' => rw [getD_cons_succ]; exact h3 j' (Nat.lt_of_succ_lt_succ hj)
        · exact h4

theorem getD_take {α : Type} (d : α) :
    ∀ (l : List α) (m j : ℕ), j < m → (l.take m).getD j d = l.getD j d
  | [], _, _, _ => by simp
  | _ :: _, m + 1, 0, _ => rfl
  | _ :: t, m + 1, j + 1, h => by
    rw [List.take_succ_cons, getD_cons_succ, getD_cons_succ]
    exact getD_take d t m j (Nat.lt_of_succ_lt_succ h)
  | _ :: _, 0, j, h => absurd h (Nat.not_lt_zero j)

theorem init_le_foldl_max : ∀ (l : List ℚ) (a : ℚ), a ≤ l.foldl max a
  | [], a => le_refl a
  | w :: l, a => le_trans (le_max_left a w) (init_le_foldl_max l (max a w))

theorem mem_le_foldl_max : ∀ (l : List ℚ) (a x : ℚ), x ∈ l → x ≤ l.foldl max a
  | [], _, _, hx => absurd hx (by simp)
  | w :: l, a, x, hx => by
    rcases List.mem_cons.mp hx with rfl | hx'
    · exact le_trans (le_max_right a x) (init_le_foldl_max l (max a x))
    · exact mem_le_foldl_max l (max a w) x hx'

theorem sum_take_succ_getD : ∀ (l : List ℚ) (j : ℕ), j < l.length →
    (l.take (j + 1)).sum = (l.take j).sum + l.getD j 0
  | [], j, h => absurd h (by simp)
  | w :: t, 0, _ => by simp
  | w :: t, j + 1, h => by
    rw [List.take_succ_cons, List.take_succ_cons, List.sum_cons, List.sum_cons,
      getD_cons_succ, sum_take_succ_getD t j (Nat.lt_of_succ_lt_succ h),
      add_assoc]

/-- Unfolding of `apply_channel` on an exposed kraus list. -/
theorem apply_channel_some (ks : List KrausMat) (st : StateVec) (p : ℚ) :
    apply_channel (some ks) st p =
      match chanLoop (channelWeights ks st) 0 p 0 0 with
      | none => .error "No Kraus operators"
      | some out =>
        let sel := if 0 ≤ out.p ∨ out.weight = 0
          then (out.fallback_weight_index, out.fallback_weight)
          else (out.index, out.weight)
        .ok (some (sel.1, sel.2, matVec (ks.getD sel.1 []) st)) := rfl

/-- A nonempty kraus list always yields a successful selection. -/
theorem apply_channel_total (ks : List KrausMat) (st : StateVec) (p : ℚ)
    (hne : ks ≠ []) : ∃ r, apply_channel (some ks) st p = .ok (some r) := by
  obtain ⟨k, ks', rfl⟩ := List.exists_cons_of_ne_nil hne
  cases hloop : chanLoop (channelWeights (k :: ks') st) 0 p 0 0 with
  | none =>
    exact absurd hloop (chanLoop_cons_ne_none _ _ _ _ _ _)
  | some out =>
    exact ⟨_, by rw [apply_channel_some, hloop]⟩

/-- Claim C1: for an action exposing a non-empty Kraus decomposition,
`apply_channel` walks the operators in order, takes as un-normalized
weight the squared norm of the buffer prepared for each operator,
subtracts each weight from the drawn threshold, and returns the index
of the first operator at which the running difference drops below zero
(together with that weight and the prepared buffer). -/
theorem apply_channel_selects_first_crossing (ks : List KrausMat)
    (st : StateVec) (p : ℚ) (j : ℕ) (hp : 0 ≤ p) (hj : j < ks.length)
    (hcross : ((channelWeights ks st).take (j + 1)).sum > p)
    (hbefore : ∀ k < j, ((channelWeights ks st).take (k + 1)).sum ≤ p) :
    apply_channel (some ks) st p =
      .ok (some (j, normSq (matVec (ks.getD j []) st),
        matVec (ks.getD j []) st)) := by
  have hjw : j < (channelWeights ks st).length := by
    rwa [channelWeights_length]
  have hloop := chanLoop_cross (channelWeights ks st) 0 p 0 0 j hjw hcross hbefore
  have hSj : ((channelWeights ks st).take j).sum ≤ p := by
    cases j with
    | zero => simpa using hp
    | succ j' => exact hbefore j' (Nat.lt_succ_self j')
  have hwpos : 0 < (channelWeights ks st).getD j 0 := by
    have hts := sum_take_succ_getD (channelWeights ks st) j hjw
    linarith
  have hbranch : ¬(0 ≤ p - ((channelWeights ks st).take (j + 1)).sum ∨
      (channelWeights ks st).getD j 0 = 0) := by
    push_neg
    exact ⟨by linarith, ne_of_gt hwpos⟩
  rw [apply_channel_some, hloop]
  simp only []
  rw [if_neg hbranch]
  rw [Nat.zero_add, channelWeights_getD]

theorem getD_mem {α : Type} (d : α) :
    ∀ (l : List α) (n : ℕ), n < l.length → l.getD n d ∈ l
  | [], n, h => absurd h (by simp)
  | a :: t, 0, _ => List.mem_cons_self a t
  | a :: t, n + 1, h =>
    List.mem_cons_of_mem a (getD_mem d t n (Nat.lt_of_succ_lt_succ h))

/-- The fallback scan started from weight 0 and index 0 on a nonempty
list of nonnegative weights returns the first index attaining the
largest weight. -/
theorem fbScan_start_spec (ws : List ℚ) (hne : ws ≠ [])
    (hnn : ∀ w ∈ ws, 0 ≤ w) :
    (fbScan ws 0 0 0).2 < ws.length ∧
    ws.getD (fbScan ws 0 0 0).2 0 = (fbScan ws 0 0 0).1 ∧
    (∀ j < ws.length, ws.getD j 0 ≤ (fbScan ws 0 0 0).1) ∧
    (∀ j < (fbScan ws 0 0 0).2, ws.getD j 0 < (fbScan ws 0 0 0).1) := by
  by_cases hex : ∃ x ∈ ws, (0 : ℚ) < x
  · obtain ⟨k, hk, h1, h2, h3, _⟩ := (fbScan_spec ws 0 0 0).2 hex
    rw [Nat.zero_add] at h1
    refine ⟨?_, ?_, ?_, ?_⟩
    · rw [h1]; exact hk
    · rw [h1]; exact h2
    · intro j hj
      rw [fbScan_fst]
      exact mem_le_foldl_max _ _ _ (getD_mem 0 ws j hj)
    · intro j hj
      rw [h1] at hj
      exact h3 j hj
  · push_neg at hex
    have heq := (fbScan_spec ws 0 0 0).1 hex
    have hzero : ∀ j < ws.length, ws.getD j 0 = 0 := fun j hj =>
      le_antisymm (hex _ (getD_mem 0 ws j hj)) (hnn _ (getD_mem 0 ws j hj))
    rw [heq]
    exact ⟨List.length_pos.mpr hne, hzero 0 (List.length_pos.mpr hne),
      fun j hj => le_of_eq (hzero j hj),
      fun j hj => absurd hj (Nat.not_lt_zero j)⟩

/-- Inversion: whatever `apply_channel` successfully returns is a valid
kraus index `i`, the weight observed at `i`, and the buffer prepared
for `i`. -/
theorem apply_channel_ok_inv (ks : List KrausMat) (st : StateVec) (p : ℚ)
    (i : ℕ) (w : ℚ) (buf : StateVec)
    (h : apply_channel (some ks) st p = .ok (some (i, w, buf))) :
    i < ks.length ∧ w = (channelWeights ks st).getD i 0 ∧
      buf = matVec (ks.getD i []) st := by
  cases hloop : chanLoop (channelWeights ks st) 0 p 0 0 with
  | none =>
    rw [apply_channel_some, hloop] at h
    exact absurd h (by simp)
  | some out =>
    rw [apply_channel_some, hloop] at h
    simp only [] at h
    obtain ⟨k, hk, hidx, hwt, hfb⟩ := chanLoop_shape _ _ _ _ _ _ hloop
    have hklen : k < ks.length := by rwa [channelWeights_length] at hk
    have hple : ((channelWeights ks st).take (k + 1)).length ≤
        (channelWeights ks st).length := by
      rw [List.length_take]; omega
    have hpne : (channelWeights ks st).take (k + 1) ≠ [] := by
      refine List.length_pos.mp ?_
      rw [List.length_take]
      omega
    have hpnn : ∀ x ∈ (channelWeights ks st).take (k + 1), 0 ≤ x := fun x hx =>
      channelWeights_nonneg ks st x (List.mem_of_mem_take hx)
    obtain ⟨hs1, hs2, hs3, hs4⟩ := fbScan_start_spec _ hpne hpnn
    by_cases hc : 0 ≤ out.p ∨ out.weight = 0
    · rw [if_pos hc] at h
      have h' : out.fallback_weight_index = i ∧ out.fallback_weight = w ∧
          matVec (ks.getD out.fallback_weight_index []) st = buf := by
        simpa using h
      obtain ⟨hi, hw, hbuf⟩ := h'
      have hfb1 : out.fallback_weight =
          (fbScan ((channelWeights ks st).take (k + 1)) 0 0 0).1 :=
        congrArg Prod.fst hfb
      have hfb2 : out.fallback_weight_index =
          (fbScan ((channelWeights ks st).take (k + 1)) 0 0 0).2 :=
        congrArg Prod.snd hfb
      have hilt : i < ((channelWeights ks st).take (k + 1)).length := by
        rw [← hi, hfb2]; exact hs1
    -- the selected index lies in the visited prefix
      have hitake : i < k + 1 := by
        have := hilt
        rw [List.length_take] at this
        omega
      refine ⟨by omega, ?_, ?_⟩
      · rw [← hw, hfb1, ← hs2, ← hfb2, hi, getD_take 0 _ _ _ hitake]
      · rw [← hbuf, hi]
    · rw [if_neg hc] at h
      have h' : out.index = i ∧ out.weight = w ∧
          matVec (ks.getD out.index []) st = buf := by
        simpa using h
      obtain ⟨hi, hw, hbuf⟩ := h'
      rw [Nat.zero_add] at hidx
      have hik : k = i := by rw [← hidx, hi]
      refine ⟨?_, ?_, ?_⟩
      · rw [← hik]; exact hklen
      · rw [← hw, hwt, hik]
      · rw [← hbuf, hi]

/-- Claim C2: when the cumulative weights never cross the drawn
threshold (or the selected weight vanishes), `apply_channel` falls back
deterministically to the first operator attaining the largest observed
weight; in every successful case the selected weight is exactly the
squared norm of the buffer that is swapped in, so dividing the buffer
by the square root of the weight yields a unit-norm state; and the
numerical edge cases raise no error. -/
theorem apply_channel_fallback_renormalization (ks : List KrausMat)
    (st : StateVec) (p : ℚ) :
    (ks ≠ [] → ∃ r, apply_channel (some ks) st p = .ok (some r)) ∧
    (∀ i w buf, apply_channel (some ks) st p = .ok (some (i, w, buf)) →
      i < ks.length ∧ buf = matVec (ks.getD i []) st ∧ w = normSq buf ∧
        (w ≠ 0 → renormalizedNormSq buf w = 1)) ∧
    (ks ≠ [] → 0 ≤ p → (channelWeights ks st).sum ≤ p →
      ∃ i, apply_channel (some ks) st p =
          .ok (some (i, (channelWeights ks st).getD i 0,
            matVec (ks.getD i []) st)) ∧
        i < ks.length ∧
        (∀ j < ks.length,
          (channelWeights ks st).getD j 0 ≤ (channelWeights ks st).getD i 0) ∧
        (∀ j < i,
          (channelWeights ks st).getD j 0 < (channelWeights ks st).getD i 0)) := by
  refine ⟨apply_channel_total ks st p, ?_, ?_⟩
  · intro i w buf h
    obtain ⟨h1, h2, h3⟩ := apply_channel_ok_inv ks st p i w buf h
    have hwn : w = normSq buf := by
      rw [h2, channelWeights_getD, h3]
    refine ⟨h1, h3, hwn, fun hw0 => ?_⟩
    rw [renormalizedNormSq, ← hwn]
    exact div_self hw0
  · intro hne hp hsum
    have hwsne : channelWeights ks st ≠ [] := by
      intro h0
      apply hne
      have := channelWeights_length ks st
      rw [h0] at this
      exact List.length_eq_zero.mp this.symm
    have hloop := chanLoop_no_cross (channelWeights ks st) 0 p 0 0 hwsne
      (channelWeights_nonneg ks st) (by linarith)
    obtain ⟨hs1, hs2, hs3, hs4⟩ :=
      fbScan_start_spec (channelWeights ks st) hwsne (channelWeights_nonneg ks st)
    refine ⟨(fbScan (channelWeights ks st) 0 0 0).2, ?_, ?_, ?_, ?_⟩
    · rw [apply_channel_some, hloop]
      simp only []
      rw [if_pos (Or.inl (by linarith :
        (0 : ℚ) ≤ p - (channelWeights ks st).sum))]
      rw [← hs2]
    · rwa [channelWeights_length] at hs1
    · intro j hj
      rw [← channelWeights_length ks st] at hj
      rw [hs2]
      exact hs3 j hj
    · intro j hj
      rw [hs2]
      exact hs4 j hj

/-- Witness for claim C1: a two-outcome channel with weights 3/10 and
7/10 and the draw 19/20 selects the second operator (index 1). -/
theorem apply_channel_selects_first_crossing_witness :
    apply_channel
        (some [[[(1/2, 1/5), (0, 0)], [(1/10, 0), (0, 0)]],
               [[(7/10, 2/5), (0, 0)], [(1/5, 1/10), (0, 0)]]])
        [(1, 0), (0, 0)] (19/20) =
      .ok (some (1, 7/10, [(7/10, 2/5), (1/5, 1/10)])) := by
  rw [apply_channel_selects_first_crossing _ _ _ 1 (by norm_num) (by norm_num)
    (by norm_num [channelWeights, normSq, matVec, cmul, cadd])
    (by
      intro k hk
      interval_cases k
      norm_num [channelWeights, normSq, matVec, cmul, cadd])]
  norm_num [normSq, matVec, cmul, cadd]

/-- Witness for claim C2: with weights 1/5 and 1/5 and draw 1/2 the
threshold is never crossed and the fallback picks the first operator
attaining the maximal weight. -/
theorem apply_channel_fallback_renormalization_witness :
    ∃ i, apply_channel (some [[[(1/5, 2/5)]], [[(2/5, 1/5)]]]) [(1, 0)] (1/2) =
        .ok (some (i,
          (channelWeights [[[(1/5, 2/5)]], [[(2/5, 1/5)]]] [(1, 0)]).getD i 0,
          matVec (([[[(1/5, 2/5)]], [[(2/5, 1/5)]]] :
            List KrausMat).getD i []) [(1, 0)])) ∧
      i < ([[[(1/5, 2/5)]], [[(2/5, 1/5)]]] : List KrausMat).length ∧
      (∀ j < ([[[(1/5, 2/5)]], [[(2/5, 1/5)]]] : List KrausMat).length,
        (channelWeights [[[(1/5, 2/5)]], [[(2/5, 1/5)]]] [(1, 0)]).getD j 0 ≤
          (channelWeights [[[(1/5, 2/5)]], [[(2/5, 1/5)]]] [(1, 0)]).getD i 0) ∧
      (∀ j < i,
        (channelWeights [[[(1/5, 2/5)]], [[(2/5, 1/5)]]] [(1, 0)]).getD j 0 <
          (channelWeights [[[(1/5, 2/5)]], [[(2/5, 1/5)]]] [(1, 0)]).getD i 0) :=
  (apply_channel_fallback_renormalization [[[(1/5, 2/5)]], [[(2/5, 1/5)]]]
    [(1, 0)] (1/2)).2.2 (List.cons_ne_nil _ _) (by norm_num)
    (by norm_num [channelWeights, normSq, matVec, cmul, cadd])

/-- Claim C9: the `None` sentinel is returned exactly when the action
exposes no Kraus decomposition at all; an exposed empty Kraus list
fails the assertion (message "No Kraus operators") instead of
returning the sentinel; and for any nonempty exposed list the
assertion branch is unreachable - a selection is always returned. -/
theorem apply_channel_sentinel_vs_assert (kraus : Option (List KrausMat))
    (st : StateVec) (p : ℚ) :
    (apply_channel kraus st p = .ok none ↔ kraus = none) ∧
    (apply_channel (some []) st p = .error "No Kraus operators") ∧
    (∀ ks, kraus = some ks → ks ≠ [] →
      ∃ r, apply_channel kraus st p = .ok (some r)) := by
  refine ⟨⟨?_, ?_⟩, rfl, ?_⟩
  · intro h
    cases kraus with
    | none => rfl
    | some ks =>
      cases hloop : chanLoop (channelWeights ks st) 0 p 0 0 with
      | none =>
        rw [apply_channel_some, hloop] at h
        exact absurd h (by simp)
      | some out =>
        rw [apply_channel_some, hloop] at h
        exact absurd h (by simp)
  · rintro rfl
    rfl
  · rintro ks rfl hne
    exact apply_channel_total ks st p hne

/-- Witness for claim C9. -/
theorem apply_channel_sentinel_vs_assert_witness :
    (apply_channel none [(1, 0)] (1/2) = .ok none) ∧
    (apply_channel (some []) [(1, 0)] (1/2) = .error "No Kraus operators") ∧
    ∃ r, apply_channel (some [[[(1, 0)]]]) [(1, 0)] (1/2) = .ok (some r) :=
  ⟨(apply_channel_sentinel_vs_assert none [(1, 0)] (1/2)).1.mpr rfl,
   (apply_channel_sentinel_vs_assert (some []) [(1, 0)] (1/2)).2.1,
   (apply_channel_sentinel_vs_assert (some [[[(1, 0)]]]) [(1, 0)] (1/2)).2.2
     [[[(1, 0)]]] rfl (List.cons_ne_nil _ _)⟩

/-- Claim C10: when the mixture or channel strategy succeeds and the
action is a measurement, the selected index is recorded into the
classical data store under the action measurement key; the unitary
strategy never records anything; nothing is recorded when the action
is not a measurement. -/
theorem strat_measurement_recording (a : Action) (st : StateVec)
    (chosen : ℕ) (p : ℚ) (data : ClassicalData) :
    ((strat_act_on_state_vector_from_apply_unitary a st data).2 = data) ∧
    (∀ mix, a.mixture = some mix →
      strat_act_on_state_vector_from_mixture a st chosen data =
        (.sTrue, if a.is_measurement then data ++ [(a.key, chosen)] else data)) ∧
    (a.mixture = none →
      strat_act_on_state_vector_from_mixture a st chosen data =
        (.sNotImpl, data)) ∧
    (∀ ks, a.kraus = some ks → ks ≠ [] →
      ∃ i w buf, apply_channel a.kraus st p = .ok (some (i, w, buf)) ∧
        strat_act_on_state_vector_from_channel a st p data =
          .ok (.sTrue, if a.is_measurement then data ++ [(a.key, i)] else data)) ∧
    (a.kraus = none →
      strat_act_on_state_vector_from_channel a st p data =
        .ok (.sNotImpl, data)) := by
  refine ⟨rfl, ?_, ?_, ?_, ?_⟩
  · intro mix hm
    simp [strat_act_on_state_vector_from_mixture, apply_mixture, hm,
      record_channel_measurement]
  · intro hm
    simp [strat_act_on_state_vector_from_mixture, apply_mixture, hm]
  · intro ks hk hne
    obtain ⟨⟨i, w, buf⟩, hr⟩ := apply_channel_total ks st p hne
    refine ⟨i, w, buf, ?_, ?_⟩
    · rw [hk]; exact hr
    · simp [strat_act_on_state_vector_from_channel, hk, hr,
        record_channel_measurement]
  · intro hk
    simp [strat_act_on_state_vector_from_channel, hk, apply_channel]

/-- Witness for claim C10: a measurement action with a mixture records
the chosen index; one with a channel records the selected index. -/
theorem strat_measurement_recording_witness :
    strat_act_on_state_vector_from_mixture
        ⟨none, some [(1, [[(1, 0)]])], none, true, "m"⟩ [(1, 0)] 0 [] =
      (.sTrue, [("m", 0)]) ∧
    ∃ i w buf,
      apply_channel (some [[[(1, 0)]]]) [(1, 0)] (1/2) = .ok (some (i, w, buf)) ∧
      strat_act_on_state_vector_from_channel
          ⟨none, none, some [[[(1, 0)]]], true, "k"⟩ [(1, 0)] (1/2) [] =
        .ok (.sTrue, [("k", i)]) := by
  constructor
  · have h := (strat_measurement_recording
      ⟨none, some [(1, [[(1, 0)]])], none, true, "m"⟩ [(1, 0)] 0 (1/2) []).2.1
      [(1, [[(1, 0)]])] rfl
    simpa using h
  · have h := (strat_measurement_recording
      ⟨none, none, some [[[(1, 0)]]], true, "k"⟩ [(1, 0)] 0 (1/2) []).2.2.2.1
      [[[(1, 0)]]] rfl (List.cons_ne_nil _ _)
    simpa using h

/-- Claim C3 counterexample: when every strategy reports
NotImplemented the raised TypeError message does not name the channel
capability (the claim lists channel among the named capabilities). -/
theorem act_on_fallback_message_no_channel :
    act_on_fallback .sNotImpl .sNotImpl .sNotImpl .sNotImpl true =
      .error actOnErrMsg ∧
    occursIn "channel".toList actOnErrMsg.toList = false ∧
    occursIn "Channel".toList actOnErrMsg.toList = false ∧
    occursIn "Kraus".toList actOnErrMsg.toList = false ∧
    occursIn "kraus".toList actOnErrMsg.toList = false := by
  refine ⟨rfl, ?_, ?_, ?_, ?_⟩ <;> decide

/-- Claim C3 (amended): the dispatch chain tries apply-unitary, then
mixture, then channel, then decompose only when permitted, stopping at
the first strategy that succeeds; if every strategy returns
NotImplemented it raises the TypeError whose message names
SupportsUnitary, SupportsConsistentApplyUnitary, SupportsMixture and
being a measurement - but not the channel capability. -/
theorem act_on_fallback_dispatch_order :
    (∀ (m c d : StratResult) (allow : Bool),
      act_on_fallback .sTrue m c d allow = .ok true) ∧
    (∀ (c d : StratResult) (allow : Bool),
      act_on_fallback .sNotImpl .sTrue c d allow = .ok true) ∧
    (∀ (d : StratResult) (allow : Bool),
      act_on_fallback .sNotImpl .sNotImpl .sTrue d allow = .ok true) ∧
    (act_on_fallback .sNotImpl .sNotImpl .sNotImpl .sTrue true = .ok true) ∧
    (∀ d : StratResult,
      act_on_fallback .sNotImpl .sNotImpl .sNotImpl d false =
        .error actOnErrMsg) ∧
    (act_on_fallback .sNotImpl .sNotImpl .sNotImpl .sNotImpl true =
      .error actOnErrMsg) ∧
    occursIn "SupportsUnitary".toList actOnErrMsg.toList = true ∧
    occursIn "SupportsConsistentApplyUnitary".toList actOnErrMsg.toList = true ∧
    occursIn "SupportsMixture".toList actOnErrMsg.toList = true ∧
    occursIn "measurement".toList actOnErrMsg.toList = true ∧
    occursIn "channel".toList actOnErrMsg.toList = false := by
  refine ⟨fun m c d allow => rfl, fun c d allow => rfl, fun d allow => rfl,
    rfl, fun d => rfl, rfl, ?_, ?_, ?_, ?_, ?_⟩ <;> decide

/-- Claim C8: after each buffered state-vector operation the state
vector and the buffer do not alias; passing the buffer to
`_swap_target_tensor_for` exchanges the two roles instead of copying. -/
theorem buffered_state_vector_no_alias (s : BufferedSVRef) (ret : ℕ)
    (h : s.state_vector ≠ s.buffer) :
    ((apply_unitary_ref s ret).state_vector ≠ (apply_unitary_ref s ret).buffer) ∧
    ((apply_mixture_ref s).state_vector ≠ (apply_mixture_ref s).buffer) ∧
    ((apply_channel_ref s).state_vector ≠ (apply_channel_ref s).buffer) ∧
    ((measure_ref s).state_vector ≠ (measure_ref s).buffer) ∧
    (swap_target_tensor_for s s.buffer = ⟨s.buffer, s.state_vector⟩) := by
  refine ⟨?_, ?_, ?_, h, ?_⟩
  · unfold apply_unitary_ref swap_target_tensor_for
    by_cases hr : ret = s.buffer
    · rw [if_pos hr]
      subst hr
      exact Ne.symm h
    · rw [if_neg hr]
      exact hr
  · unfold apply_mixture_ref swap_target_tensor_for
    rw [if_pos rfl]
    exact Ne.symm h
  · unfold apply_channel_ref swap_target_tensor_for
    rw [if_pos rfl]
    exact Ne.symm h
  · unfold swap_target_tensor_for
    rw [if_pos rfl]

/-- Claim C4: applying a sequence of Clifford operations one-by-one to
a tableau-backed simulation state yields the same tableau as applying
the single gate compiled by `from_op_list` to a fresh identical state;
each operation enters as its tableau padded to the full qubit space at
its qubit positions. -/
theorem act_on_ops_eq_compiled_gate {n : ℕ} (T : Tableau n)
    (ops : List (Tableau n)) (h : ∀ op ∈ ops, Valid op) :
    act_on_ops T ops = act_on_gate T (from_op_list ops) :=
  foldl_thenT_eq ops h T

/-- Witness for claim C4: a Hadamard padded at qubit 0 followed by a
CNOT on a 2-qubit register. -/
theorem act_on_ops_eq_compiled_gate_witness :
    (∀ op ∈ [pad1 gateH (0 : Fin 2), pad2 cnot2 0 1], Valid op) ∧
      act_on_ops (idT 2) [pad1 gateH (0 : Fin 2), pad2 cnot2 0 1] =
        act_on_gate (idT 2)
          (from_op_list [pad1 gateH (0 : Fin 2), pad2 cnot2 0 1]) :=
  ⟨by decide, act_on_ops_eq_compiled_gate (idT 2) _ (by decide)⟩

/-- Claim C5: enumerating every valid (trans_x, trans_z) pair, building
the gate with `from_xz_map` and deduplicating by tableau value yields
exactly 24 distinct single-qubit Clifford gates, and every resulting
tableau satisfies the single-qubit symplectic condition. -/
theorem from_xz_map_24_distinct_and_symplectic :
    allCliffordTableaux.dedup.length = 24 ∧
      ∀ t ∈ allCliffordTableaux, symplectic1 t := by
  constructor
  · decide
  · decide

/-- Claim C6: for every valid (trans_x, trans_z) pair the constructed
gate round-trips its transforms, and the images of X, Y, Z stay a
pairwise-distinct, right-handed permutation of the axes. -/
theorem from_xz_map_round_trip (pr : PauliTransform × PauliTransform)
    (h : pr ∈ allRotationPairs) :
    transform (from_xz_map pr.1 pr.2) .X = pr.1 ∧
    transform (from_xz_map pr.1 pr.2) .Z = pr.2 ∧
    no_collision (transform (from_xz_map pr.1 pr.2) .X)
      (transform (from_xz_map pr.1 pr.2) .Y)
      (transform (from_xz_map pr.1 pr.2) .Z) = true ∧
    right_handed (transform (from_xz_map pr.1 pr.2) .X)
      (transform (from_xz_map pr.1 pr.2) .Y)
      (transform (from_xz_map pr.1 pr.2) .Z) = true := by
  have hall : ∀ q ∈ allRotationPairs,
      transform (from_xz_map q.1 q.2) PauliAxis.X = q.1 ∧
      transform (from_xz_map q.1 q.2) PauliAxis.Z = q.2 ∧
      no_collision (transform (from_xz_map q.1 q.2) PauliAxis.X)
        (transform (from_xz_map q.1 q.2) PauliAxis.Y)
        (transform (from_xz_map q.1 q.2) PauliAxis.Z) = true ∧
      right_handed (transform (from_xz_map q.1 q.2) PauliAxis.X)
        (transform (from_xz_map q.1 q.2) PauliAxis.Y)
        (transform (from_xz_map q.1 q.2) PauliAxis.Z) = true := by decide
  exact hall pr h

/-- Witness for claim C6, at the pair sending X to X and Z to -Z (the
Pauli X gate). -/
theorem from_xz_map_round_trip_witness :
    ((⟨.X, false⟩, ⟨.Z, true⟩) : PauliTransform × PauliTransform) ∈
        allRotationPairs ∧
      (transform (from_xz_map ⟨.X, false⟩ ⟨.Z, true⟩) .X = ⟨.X, false⟩ ∧
       transform (from_xz_map ⟨.X, false⟩ ⟨.Z, true⟩) .Z = ⟨.Z, true⟩ ∧
       no_collision (transform (from_xz_map ⟨.X, false⟩ ⟨.Z, true⟩) .X)
         (transform (from_xz_map ⟨.X, false⟩ ⟨.Z, true⟩) .Y)
         (transform (from_xz_map ⟨.X, false⟩ ⟨.Z, true⟩) .Z) = true ∧
       right_handed (transform (from_xz_map ⟨.X, false⟩ ⟨.Z, true⟩) .X)
         (transform (from_xz_map ⟨.X, false⟩ ⟨.Z, true⟩) .Y)
         (transform (from_xz_map ⟨.X, false⟩ ⟨.Z, true⟩) .Z) = true) :=
  ⟨by decide, from_xz_map_round_trip (⟨.X, false⟩, ⟨.Z, true⟩) (by decide)⟩

theorem mkRat_half : (mkRat 1 2 : ℚ) = 1/2 := by
  rw [Rat.mkRat_eq_div]
  norm_num

theorem mkRat_nhalf : (mkRat (-1) 2 : ℚ) = -(1/2) := by
  rw [Rat.mkRat_eq_div]
  push_cast
  norm_num

theorem mkRat_neg_one : (mkRat (-1) 1 : ℚ) = -1 := by
  rw [Rat.mkRat_eq_div]
  push_cast
  norm_num

theorem half_rat_den : ((1 : ℚ)/2).den = 2 := by
  rw [← mkRat_half]
  decide

/-- Claim C7 counterexample: raising the Pauli X gate to the
non-integer exponent 1/2 does not raise a type error - it returns the
dedicated square-root gate - refuting "raising g to any other
(non-integer) exponent fails with a type error" as stated. -/
theorem pow_clifford_half_succeeds :
    ((1 : ℚ)/2).den ≠ 1 ∧ pow_clifford gateX (1/2) = some gateXsqrt := by
  constructor
  · rw [half_rat_den]
    decide
  · rw [← mkRat_half]
    decide

/-- Claim C7 (amended): integer powers are repeated composition and
inversion with `g ** -1` the inverse of `g`; the exponents 1/2 and
-1/2 succeed exactly through the dedicated square-root family on the
Pauli gates X, Y, Z; every other non-integer exponent fails with a
type error. -/
theorem pow_clifford_spec :
    (∀ g ∈ allCliffordTableaux,
      pow_clifford g (-1) = some (invT g) ∧
      thenT g (invT g) = idT 1 ∧ thenT (invT g) g = idT 1) ∧
    (∀ (g : Tableau 1) (z : ℤ), pow_clifford g (z : ℚ) = some (zpowT g z)) ∧
    (pow_clifford gateY (1/2) = some gateYsqrt ∧
     pow_clifford gateZ (1/2) = some gateZsqrt ∧
     pow_clifford gateX (-(1/2)) = some gateXnsqrt ∧
     pow_clifford gateXsqrt (-1) = some gateXnsqrt) ∧
    (∀ (g : Tableau 1) (e : ℚ), e.den ≠ 1 → e ≠ 1/2 → e ≠ -(1/2) →
      pow_clifford g e = none) ∧
    (pow_clifford gateZ (1/4) = none ∧ pow_clifford gateH (1/2) = none) := by
  refine ⟨?_, ?_, ⟨?_, ?_, ?_, ?_⟩, ?_, ?_, ?_⟩
  · rw [← mkRat_neg_one]
    decide
  · intro g z
    have hden : ((z : ℚ)).den = 1 := Rat.den_intCast z
    have hnum : ((z : ℚ)).num = z := Rat.num_intCast z
    have h1 : (z : ℚ) ≠ mkRat 1 2 := by
      intro he
      rw [he] at hden
      exact absurd hden (by decide)
    have h2 : (z : ℚ) ≠ mkRat (-1) 2 := by
      intro he
      rw [he] at hden
      exact absurd hden (by decide)
    unfold pow_clifford sqrtFamily
    rw [if_neg h1, if_neg h2, if_pos hden, hnum]
  · rw [← mkRat_half]
    decide
  · rw [← mkRat_half]
    decide
  · rw [← mkRat_nhalf]
    decide
  · rw [← mkRat_neg_one]
    decide
  · intro g e hd h1 h2
    rw [← mkRat_half] at h1
    rw [← mkRat_nhalf] at h2
    unfold pow_clifford sqrtFamily
    rw [if_neg h1, if_neg h2, if_neg hd]
  · rw [show ((1 : ℚ)/4) = mkRat 1 4 by rw [Rat.mkRat_eq_div]; norm_num]
    decide
  · rw [← mkRat_half]
    decide

/-- Witness for claim C7 (amended). -/
theorem pow_clifford_spec_witness :
    gateX ∈ allCliffordTableaux ∧
    (pow_clifford gateX (-1) = some (invT gateX) ∧
      thenT gateX (invT gateX) = idT 1 ∧ thenT (invT gateX) gateX = idT 1) ∧
    pow_clifford gateH ((3 : ℤ) : ℚ) = some (zpowT gateH 3) ∧
    ((1 : ℚ)/2).den ≠ 1 ∧
    ((3 : ℚ)/2).den ≠ 1 ∧ pow_clifford gateH (3/2) = none := by
  refine ⟨by decide, pow_clifford_spec.1 gateX (by decide),
    pow_clifford_spec.2.1 gateH 3, ?_, ?_, ?_⟩
  · rw [half_rat_den]; decide
  · rw [show ((3 : ℚ)/2) = mkRat 3 2 by rw [Rat.mkRat_eq_div]; norm_num]
    decide
  · refine pow_clifford_spec.2.2.2.1 gateH (3/2) ?_ (by norm_num) (by norm_num)
    rw [show ((3 : ℚ)/2) = mkRat 3 2 by rw [Rat.mkRat_eq_div]; norm_num]
    decide

/-- Witness for claim C8. -/
theorem buffered_state_vector_no_alias_witness :
    ((⟨0, 1⟩ : BufferedSVRef).state_vector ≠ (⟨0, 1⟩ : BufferedSVRef).buffer) ∧
    (((apply_unitary_ref ⟨0, 1⟩ 2).state_vector ≠
        (apply_unitary_ref ⟨0, 1⟩ 2).buffer) ∧
      ((apply_mixture_ref ⟨0, 1⟩).state_vector ≠
        (apply_mixture_ref ⟨0, 1⟩).buffer) ∧
      ((apply_channel_ref ⟨0, 1⟩).state_vector ≠
        (apply_channel_ref ⟨0, 1⟩).buffer) ∧
      ((measure_ref ⟨0, 1⟩).state_vector ≠ (measure_ref ⟨0, 1⟩).buffer) ∧
      (swap_target_tensor_for ⟨0, 1⟩ (⟨0, 1⟩ : BufferedSVRef).buffer =
        ⟨(⟨0, 1⟩ : BufferedSVRef).buffer, (⟨0, 1⟩ : BufferedSVRef).state_vector⟩)) :=
  ⟨by decide, buffered_state_vector_no_alias ⟨0, 1⟩ 2 (by decide)⟩

end Cirq
